import Mathlib

/-!
# Verification of the spatial-market engine

A shallow embedding of the repository's core: the piecewise-linear
function algebra (`FunctionBase`, `FunctionNullable`, `Demand`, `Supply`)
and the market equilibrium resolver (`Market.calculate_groups_dfs`,
`Market.calculate_groups`, `Market.update_prices`).

`Price` and `Volume` are wrapped `NotNan<f64>` values in the source; the
embedding represents both as exact rationals (`ℚ`).  The `f64::MIN` /
`f64::MAX` sentinels used by the resolver are embedded as the exact
rational values of those floats.  The recursive DFS of the resolver is
embedded with an explicit fuel parameter; fuel-sufficiency lemmas recover
the unbounded recursion of the source.
-/

namespace SpatialMarket

/-- `f64::MAX` as an exact rational, the `Price::max()` sentinel. -/
def priceMax : ℚ := (2 ^ 53 - 1) * 2 ^ 971

/-- `f64::MIN` as an exact rational, the `Price::min()` sentinel. -/
def priceMin : ℚ := -priceMax

/-- `MarketState` from `economy/market.rs`. -/
inductive MarketState where
  | undefined : MarketState
  | underSupply : MarketState
  | overSupply : MarketState
  | equilibrium (price : ℚ) (demandVolume : ℚ) (supplyVolume : ℚ) : MarketState
deriving DecidableEq, Repr

/-- Whether a `MarketState` is the `Equilibrium` variant. -/
def MarketState.isEquilibrium : MarketState → Bool
  | .equilibrium _ _ _ => true
  | _ => false

/-- `FunctionBase` from `economy/function/mod.rs`: breakpoints in a
`BTreeMap<ArgT, ValueT>` (embedded as a key-sorted association list)
plus cached leftmost/rightmost breakpoints. -/
structure FunctionBase where
  left_arg : ℚ
  left_value : ℚ
  right_arg : ℚ
  right_value : ℚ
  intervals : List (ℚ × ℚ)
deriving DecidableEq, Repr

namespace FunctionBase

/-- `FunctionBase::lower_bound`: the greatest breakpoint with argument
`≤ arg` (`range((Unbounded, Included(arg))).next_back()`). -/
def lower_bound (f : FunctionBase) (arg : ℚ) : Option (ℚ × ℚ) :=
  (f.intervals.filter (fun p => p.1 ≤ arg)).getLast?

/-- `FunctionBase::upper_bound`: the least breakpoint with argument
`≥ arg` (`range((Included(arg), Unbounded)).next()`). -/
def upper_bound (f : FunctionBase) (arg : ℚ) : Option (ℚ × ℚ) :=
  (f.intervals.filter (fun p => arg ≤ p.1)).head?

/-- `FunctionBase::value`: clamped linear interpolation between
breakpoints.  The `(None, None)` case is `unreachable!()` in the source
(a `FunctionBase` always has at least one breakpoint); the embedding
returns `0` there. -/
def value (f : FunctionBase) (arg : ℚ) : ℚ :=
  match f.lower_bound arg, f.upper_bound arg with
  | some (lower_arg, lower_val), some (upper_arg, upper_val) =>
      if lower_arg = upper_arg then
        lower_val
      else
        lower_val + (upper_val - lower_val) * ((arg - lower_arg) / (upper_arg - lower_arg))
  | some (_, lower_val), none => lower_val
  | none, some (_, upper_val) => upper_val
  | none, none => 0

/-- `FunctionBase::combine_data_points`: the sorted union of the two
breakpoint argument sets (a `BTreeSet<ArgT>`). -/
def combine_data_points (f other : FunctionBase) : List ℚ :=
  ((f.intervals.map Prod.fst ++ other.intervals.map Prod.fst).toFinset).sort (· ≤ ·)

/-- `FunctionBase::add_function`. -/
def add_function (f other : FunctionBase) : FunctionBase :=
  { left_arg := min f.left_arg other.left_arg
    left_value := f.left_value + other.left_value
    right_arg := max f.right_arg other.right_arg
    right_value := f.right_value + other.right_value
    intervals := (combine_data_points f other).map (fun arg => (arg, f.value arg + other.value arg)) }

/-- `FunctionBase::substract_function`. -/
def substract_function (f other : FunctionBase) : FunctionBase :=
  { left_arg := min f.left_arg other.left_arg
    left_value := f.left_value - other.left_value
    right_arg := max f.right_arg other.right_arg
    right_value := f.right_value - other.right_value
    intervals := (combine_data_points f other).map (fun arg => (arg, f.value arg - other.value arg)) }

/-- `FunctionBase::shift_right`: translate every argument by `shift`. -/
def shift_right (f : FunctionBase) (shift : ℚ) : FunctionBase :=
  { left_arg := f.left_arg + shift
    left_value := f.left_value
    right_arg := f.right_arg + shift
    right_value := f.right_value
    intervals := f.intervals.map (fun p => (p.1 + shift, p.2)) }

/-- `FunctionBase::shift_left`. -/
def shift_left (f : FunctionBase) (shift : ℚ) : FunctionBase :=
  f.shift_right (-shift)

/-- `FunctionBase::negate`: the source negates the cached boundary
arguments and the breakpoint values, leaving the breakpoint arguments
and the cached boundary values untouched. -/
def negate (f : FunctionBase) : FunctionBase :=
  { left_arg := -f.left_arg
    left_value := f.left_value
    right_arg := -f.right_arg
    right_value := f.right_value
    intervals := f.intervals.map (fun p => (p.1, -p.2)) }

/-- The `1e-6` absolute tolerance of the bisection loop. -/
def eps : ℚ := 1 / 1000000

/-- The bisection loop of `FunctionBase::intersect`, with explicit fuel.
Each iteration halves the bracket `[mn, mx]` exactly; the loop of the
source runs `while max - min > eps`. -/
def bisectLoop (fS fG : FunctionBase) : Nat → ℚ → ℚ → ℚ × ℚ
  | 0, mn, mx => (mn, mx)
  | n + 1, mn, mx =>
      if mx - mn > eps then
        let mid := (mn + mx) / 2
        if fS.value mid < fG.value mid then
          bisectLoop fS fG n mid mx
        else
          bisectLoop fS fG n mn mid
      else (mn, mx)

/-- Fuel sufficient for the bisection bracket of width `gap` to shrink
to at most `eps`. -/
def bisectFuel (gap : ℚ) : Nat :=
  Nat.log 2 ⌈gap / eps⌉.toNat + 1

/-- `FunctionBase::intersect`: reject when one curve is strictly above
the other at both cached extremes, otherwise bisect. -/
def intersect (f other : FunctionBase) : Option (ℚ × ℚ) :=
  if f.left_value > other.left_value ∧ f.right_value > other.right_value then none
  else if f.left_value < other.left_value ∧ f.right_value < other.right_value then none
  else
    let fS := if f.left_value < other.left_value then f else other
    let fG := if f.left_value < other.left_value then other else f
    let mn := min fS.left_arg fG.left_arg
    let mx := max fS.right_arg fG.right_arg
    let r := bisectLoop fS fG (bisectFuel (mx - mn)) mn mx
    some (r.1, fS.value r.1)

end FunctionBase

/-- `FunctionNullable` from `economy/function/mod.rs`: an optional
`FunctionBase`, `None` being the zero function. -/
structure FunctionNullable where
  function : Option FunctionBase
deriving DecidableEq, Repr

namespace FunctionNullable

/-- `FunctionNullable::zero`. -/
def zero : FunctionNullable := ⟨none⟩

/-- `FunctionNullable::value`: `0` when no curve is stored. -/
def value (f : FunctionNullable) (arg : ℚ) : ℚ :=
  match f.function with
  | some fb => fb.value arg
  | none => 0

/-- `FunctionNullable::left_value`: `0` when no curve is stored. -/
def left_value (f : FunctionNullable) : ℚ :=
  match f.function with
  | some fb => fb.left_value
  | none => 0

/-- `FunctionNullable::right_value`: `0` when no curve is stored. -/
def right_value (f : FunctionNullable) : ℚ :=
  match f.function with
  | some fb => fb.right_value
  | none => 0

/-- `FunctionNullable::add_function`. -/
def add_function (f other : FunctionNullable) : FunctionNullable :=
  match f.function, other.function with
  | some f1, some f2 => ⟨some (f1.add_function f2)⟩
  | none, some f2 => ⟨some f2⟩
  | _, none => f

/-- `FunctionNullable::substract_function`: subtracting from the absent
function stores the negated curve. -/
def substract_function (f other : FunctionNullable) : FunctionNullable :=
  match f.function, other.function with
  | some f1, some f2 => ⟨some (f1.substract_function f2)⟩
  | none, some f2 => ⟨some f2.negate⟩
  | _, none => f

/-- `FunctionNullable::shift_left`. -/
def shift_left (f : FunctionNullable) (shift : ℚ) : FunctionNullable :=
  match f.function with
  | some fb => ⟨some (fb.shift_left shift)⟩
  | none => f

/-- `FunctionNullable::intersect`: `None` unless both curves are
present. -/
def intersect (f other : FunctionNullable) : Option (ℚ × ℚ) :=
  match f.function, other.function with
  | some f1, some f2 => f1.intersect f2
  | _, _ => none

end FunctionNullable

/-- `Demand` from `economy/function/demand.rs`. -/
structure Demand where
  function : FunctionNullable
deriving DecidableEq, Repr

/-- `Supply` from `economy/function/supply.rs`. -/
structure Supply where
  function : FunctionNullable
deriving DecidableEq, Repr

/-- `Demand::zero`. -/
def Demand.zero : Demand := ⟨FunctionNullable.zero⟩

/-- `Supply::zero`. -/
def Supply.zero : Supply := ⟨FunctionNullable.zero⟩

/-- `Demand::value`. -/
def Demand.value (d : Demand) (arg : ℚ) : ℚ := d.function.value arg

/-- `Supply::value`. -/
def Supply.value (s : Supply) (arg : ℚ) : ℚ := s.function.value arg

/-- `Demand::add_function`. -/
def Demand.add_function (d other : Demand) : Demand :=
  ⟨d.function.add_function other.function⟩

/-- `Supply::add_function`. -/
def Supply.add_function (s other : Supply) : Supply :=
  ⟨s.function.add_function other.function⟩

/-- `Demand::shift_left`. -/
def Demand.shift_left (d : Demand) (shift : ℚ) : Demand :=
  ⟨d.function.shift_left shift⟩

/-- `Supply::shift_left`. -/
def Supply.shift_left (s : Supply) (shift : ℚ) : Supply :=
  ⟨s.function.shift_left shift⟩

/-- `Demand::intersect` from `economy/function/demand.rs`: delegate to
the nullable intersection, then classify a missing crossing. -/
def Demand.intersect (d : Demand) (s : Supply) : MarketState :=
  match d.function.intersect s.function with
  | some (price, amount) => .equilibrium price amount amount
  | none =>
      if d.function.right_value > s.function.right_value then
        .underSupply
      else if d.function.left_value < s.function.left_value then
        .overSupply
      else
        .undefined

/-- City identifiers (`CityId = usize`). -/
abbrev CityId := Nat

/-- `City` from `economy/geography.rs`. -/
structure City where
  id : CityId
  name : String
deriving DecidableEq, Repr

/-- `Connection` from `economy/geography.rs`: a directed edge with a
transport cost; `add_connection` always inserts the reverse edge too. -/
structure Connection where
  id_from : CityId
  id_to : CityId
  cost : ℚ
deriving DecidableEq, Repr

/-- `Geography`: cities plus a connection list per city id. -/
structure Geography where
  cities : List City
  connections : List (CityId × List Connection)
deriving DecidableEq, Repr

/-- The connection list of a city (`connections[pos]`); empty for an
unknown id (the source would fail the lookup). -/
def Geography.connOf (g : Geography) (c : CityId) : List Connection :=
  (g.connections.lookup c).getD []

/-- The ids of the geography's cities. -/
def Geography.cityIds (g : Geography) : List CityId :=
  g.cities.map City.id

/-- Well-formedness of a geography, as guaranteed by
`Geography::add_city` / `Geography::add_connection`: city ids are
distinct, every stored connection leaves the city it is filed under,
points at a known city, and has its reverse edge present with the same
cost. -/
def Geography.wf (g : Geography) : Prop :=
  g.cityIds.Nodup ∧
  (∀ c ∈ g.cityIds, ∀ conn ∈ g.connOf c,
    conn.id_from = c ∧ conn.id_to ∈ g.cityIds ∧
    (Connection.mk conn.id_to conn.id_from conn.cost) ∈ g.connOf conn.id_to)

instance (g : Geography) : Decidable g.wf := by
  unfold Geography.wf; infer_instance

/-- `CityData` from `economy/market.rs`. -/
structure CityData where
  demand : Demand
  supply : Supply
  state : MarketState
deriving DecidableEq, Repr

/-- `CityData::new`. -/
def CityData.new : CityData :=
  { demand := Demand.zero, supply := Supply.zero, state := .undefined }

/-- `Market`: a geography plus per-city data. -/
structure Market where
  geography : Geography
  cities : List (CityId × CityData)
deriving DecidableEq, Repr

namespace Market

/-- `Market::new`: one `CityData` per city; a city whose id appears in
the price map starts in `Equilibrium(price, 0, 0)`, every other city in
`Undefined`. -/
def new (geography : Geography) (prices : List (CityId × ℚ)) : Market :=
  { geography
    cities := geography.cities.map (fun city =>
      (city.id,
        match prices.lookup city.id with
        | some p => { CityData.new with state := .equilibrium p 0 0 }
        | none => CityData.new)) }

/-- The ids the market's city map iterates over. -/
def cityIdsList (m : Market) : List CityId :=
  m.cities.map Prod.fst

/-- The `MarketState` of a city (`self.cities.get(&id).unwrap().state`);
`Undefined` for an unknown id (the source would panic). -/
def stateOf (m : Market) (c : CityId) : MarketState :=
  ((m.cities.lookup c).map CityData.state).getD .undefined

/-- The `Demand` aggregate of a city. -/
def demandOf (m : Market) (c : CityId) : Demand :=
  ((m.cities.lookup c).map CityData.demand).getD Demand.zero

/-- The `Supply` aggregate of a city. -/
def supplyOf (m : Market) (c : CityId) : Supply :=
  ((m.cities.lookup c).map CityData.supply).getD Supply.zero

/-- The effective price pair of the `match` inside
`Market::calculate_groups_dfs`: `Equilibrium` contributes its price,
`OverSupply`/`UnderSupply` the `min`/`max` sentinels, and any other
combination a degenerate `(0, 0)` pair. -/
def effectivePrices : MarketState → MarketState → ℚ × ℚ
  | .equilibrium pf _ _, .equilibrium pt _ _ => (pf, pt)
  | .overSupply, .equilibrium pt _ _ => (priceMin, pt)
  | .underSupply, .equilibrium pt _ _ => (priceMax, pt)
  | .equilibrium pf _ _, .overSupply => (pf, priceMin)
  | .equilibrium pf _ _, .underSupply => (pf, priceMax)
  | .underSupply, .overSupply => (priceMax, priceMin)
  | .overSupply, .underSupply => (priceMin, priceMax)
  | _, _ => (0, 0)

/-- The map `id -> (group_id, price_compared_to_groups_base)` being
built by the DFS. -/
abbrev GroupMap := List (CityId × (CityId × ℚ))

/-- Whether the DFS descends along a connection: the absolute price gap
between the endpoints' effective prices is at or above the transport
cost. -/
def connCond (m : Market) (conn : Connection) : Prop :=
  let pr := effectivePrices (m.stateOf conn.id_from) (m.stateOf conn.id_to)
  pr.1 - pr.2 ≥ conn.cost ∨ pr.2 - pr.1 ≥ conn.cost

instance (m : Market) (conn : Connection) : Decidable (m.connCond conn) := by
  unfold connCond; infer_instance

/-- The offset added when descending along a connection:
`cost * (if price_to > price_from { 1. } else { -1. })`. -/
def connStep (m : Market) (conn : Connection) : ℚ :=
  let pr := effectivePrices (m.stateOf conn.id_from) (m.stateOf conn.id_to)
  conn.cost * (if pr.2 > pr.1 then 1 else -1)

/-- `Market::calculate_groups_dfs`, with explicit fuel standing in for
the unbounded recursion of the source: if `pos` is unvisited, record it
in `group_id`'s group with offset `group_diff`, then descend along every
qualifying connection. -/
def calculate_groups_dfs (m : Market) :
    Nat → CityId → CityId → ℚ → GroupMap → GroupMap
  | 0, _, _, _, groups => groups
  | fuel + 1, pos, group_id, group_diff, groups =>
      if (groups.lookup pos).isSome then groups
      else
        (m.geography.connOf pos).foldl
          (fun gs conn =>
            if m.connCond conn then
              m.calculate_groups_dfs fuel conn.id_to group_id
                (group_diff + m.connStep conn) gs
            else gs)
          ((pos, (group_id, group_diff)) :: groups)

/-- The ids every DFS recursion can ever insert: the map's keys plus
every connection target. -/
def candList (m : Market) : List CityId :=
  m.cityIdsList ++ (m.geography.connections.map (fun p => p.2.map Connection.id_to)).flatten

/-- Fuel sufficient for every DFS of this market: one more than the
number of ids that could ever be inserted. -/
def groupsFuel (m : Market) : Nat :=
  m.candList.length + 1

/-- The accumulation loop of `Market::calculate_groups`: one DFS per
city of the market map. -/
def calculate_groups_map (m : Market) : GroupMap :=
  m.cityIdsList.foldl (fun gs i => m.calculate_groups_dfs m.groupsFuel i i 0 gs) []

/-- Append an entry to the list of one group
(`group_lists.get_mut(&group).unwrap().push(entry)`). -/
def pushEntry (ls : List (CityId × List (CityId × ℚ))) (group : CityId)
    (entry : CityId × ℚ) : List (CityId × List (CityId × ℚ)) :=
  ls.map (fun p => if p.1 = group then (p.1, p.2 ++ [entry]) else p)

/-- `Market::calculate_groups`: regroup the DFS map into
`group_id -> [(id, price_compared_to_groups_base)]`, iterating the
`BTreeMap` in ascending key order. -/
def calculate_groups (m : Market) : List (CityId × List (CityId × ℚ)) :=
  let groups := m.calculate_groups_map
  let sorted := groups.insertionSort (fun a b => a.1 ≤ b.1)
  sorted.foldl (fun ls e => pushEntry ls e.2.1 (e.1, e.2.2))
    (m.cityIdsList.map (fun i => (i, [])))

/-- The summed, offset-shifted group demand and supply curves of one
group in `Market::update_prices`. -/
def groupCurves (m : Market) (members : List (CityId × ℚ)) : Demand × Supply :=
  members.foldl
    (fun acc e =>
      (acc.1.add_function ((m.demandOf e.1).shift_left e.2),
       acc.2.add_function ((m.supplyOf e.1).shift_left e.2)))
    (Demand.zero, Supply.zero)

/-- The state written back to one member city in
`Market::update_prices`. -/
def memberState (m : Market) (state_global : MarketState)
    (e : CityId × ℚ) : MarketState :=
  match state_global with
  | .equilibrium price _ _ =>
      let price_local := price + e.2
      .equilibrium price_local ((m.demandOf e.1).value price_local)
        ((m.supplyOf e.1).value price_local)
  | state => state

/-- Overwrite one city's state in the city map. -/
def setCityState (cities : List (CityId × CityData)) (c : CityId)
    (s : MarketState) : List (CityId × CityData) :=
  cities.map (fun p => if p.1 = c then (p.1, { p.2 with state := s }) else p)

/-- `Market::update_prices`: partition, clear each group, write back
each member's state. -/
def update_prices (m : Market) : Market :=
  let group_lists := m.calculate_groups
  { m with
    cities := group_lists.foldl
      (fun cs g =>
        let (demand, supply) := m.groupCurves g.2
        let state_global := demand.intersect supply
        g.2.foldl (fun cs2 e => setCityState cs2 e.1 (m.memberState state_global e)) cs)
      m.cities }

/-- `CityData::price` lifted to the market: the price of a city's state
when it is `Equilibrium`. -/
def priceOf (m : Market) (c : CityId) : Option ℚ :=
  match m.stateOf c with
  | .equilibrium price _ _ => some price
  | _ => none

/-- The decreasing measure of the DFS: unvisited candidate ids, plus
one. -/
def dfsBound (m : Market) (gs : GroupMap) : Nat :=
  (m.candList.toFinset \ (gs.map Prod.fst).toFinset).card + 1

/-- A discovery path of the DFS: a chain of qualifying connections from
the group's root, accumulating the signed transport costs. -/
inductive DiscPath (m : Market) (root : CityId) : CityId → ℚ → Prop where
  | base : DiscPath m root root 0
  | step {u : CityId} {d : ℚ} (conn : Connection) :
      DiscPath m root u d → conn ∈ m.geography.connOf u → m.connCond conn →
      DiscPath m root conn.id_to (d + m.connStep conn)

/-- Post-condition of one DFS call relative to its input map `gsOrig`:
every city inserted by the call has had all its qualifying connections
followed — the target is present in the final map `gsFin`, and unless it
predates the call it carries the call's group id. -/
def ScanProp (m : Market) (gsOrig gsFin : GroupMap) (gid : CityId) : Prop :=
  ∀ k, gsOrig.lookup k = none → gsFin.lookup k ≠ none →
    ∀ conn ∈ m.geography.connOf k, m.connCond conn →
      gsFin.lookup conn.id_to ≠ none ∧
      (gsOrig.lookup conn.id_to ≠ none ∨
        (gsFin.lookup conn.id_to).map Prod.fst = some gid)

/-- Well-formedness of a market: a well-formed geography whose city set
is exactly the city map's key set. -/
def wf (m : Market) : Prop :=
  m.geography.wf ∧ m.cityIdsList = m.geography.cityIds

instance (m : Market) : Decidable m.wf := by
  unfold wf; infer_instance

end Market

/-- A concrete two-breakpoint curve used to test `negate`. -/
def exNegate : FunctionBase := ⟨1, 3, 5, 7, [(1, 3), (5, 7)]⟩

/-! ## Association-list helpers -/

/-- Unfolding `List.lookup` over a cons cell. -/
theorem lookup_cons_eq_if {α β : Type} [DecidableEq α] (a : α × β)
    (t : List (α × β)) (k : α) :
    ((a :: t).lookup k) = if k = a.1 then some a.2 else t.lookup k := by
  rcases a with ⟨a1, a2⟩
  by_cases hk : k = a1
  · simp [List.lookup, hk]
  · simp [List.lookup, hk, beq_false_of_ne hk]

/-- A successful lookup key is among the keys. -/
theorem mem_keys_of_lookup {α β : Type} [DecidableEq α] {l : List (α × β)}
    {k : α} {v : β} (h : l.lookup k = some v) : k ∈ l.map Prod.fst := by
  induction l with
  | nil => simp [List.lookup] at h
  | cons a t ih =>
    rw [lookup_cons_eq_if] at h
    by_cases hk : k = a.1
    · subst hk; exact List.mem_map_of_mem Prod.fst (List.mem_cons_self a t)
    · rw [if_neg hk] at h
      exact List.mem_cons_of_mem _ (ih h)

/-- A key among the keys looks up successfully. -/
theorem lookup_isSome_of_mem_keys {α β : Type} [DecidableEq α]
    {l : List (α × β)} {k : α} (h : k ∈ l.map Prod.fst) :
    (l.lookup k).isSome := by
  induction l with
  | nil => simp at h
  | cons a t ih =>
    rw [lookup_cons_eq_if]
    by_cases hk : k = a.1
    · simp [hk]
    · rw [if_neg hk]
      rcases List.mem_map.mp h with ⟨p, hp, hfst⟩
      rcases List.mem_cons.mp hp with rfl | hpt
      · exact absurd hfst.symm hk
      · exact ih (List.mem_map.mpr ⟨p, hpt, hfst⟩)

/-- A successful lookup finds a pair of the list. -/
theorem mem_of_lookup_eq_some {α β : Type} [DecidableEq α] {l : List (α × β)}
    {k : α} {v : β} (h : l.lookup k = some v) : (k, v) ∈ l := by
  induction l with
  | nil => simp [List.lookup] at h
  | cons a t ih =>
    rw [lookup_cons_eq_if] at h
    by_cases hk : k = a.1
    · rw [if_pos hk] at h
      obtain rfl : a = (k, v) := by cases a; cases h; cases hk; rfl
      exact List.mem_cons_self _ _
    · rw [if_neg hk] at h
      exact List.mem_cons_of_mem _ (ih h)

/-- With distinct keys, a pair of the list is found by lookup. -/
theorem lookup_eq_some_of_mem {α β : Type} [DecidableEq α] {l : List (α × β)}
    (hnd : (l.map Prod.fst).Nodup) {k : α} {v : β} (h : (k, v) ∈ l) :
    l.lookup k = some v := by
  induction l with
  | nil => simp at h
  | cons a t ih =>
    rw [lookup_cons_eq_if]
    rcases List.mem_cons.mp h with rfl | hpt
    · simp
    · have hk : k ≠ a.1 := by
        rintro rfl
        exact (List.nodup_cons.mp hnd).1
          (List.mem_map.mpr ⟨(a.1, v), hpt, rfl⟩)
      rw [if_neg hk]
      exact ih (List.nodup_cons.mp hnd).2 hpt

/-! ## Function-algebra lemmas -/

namespace FunctionBase

/-- Sortedness invariant of the `BTreeMap` breakpoints: arguments are
strictly increasing along the stored list. -/
def sortedIntervals (f : FunctionBase) : Prop :=
  f.intervals.Pairwise (fun p q => p.1 < q.1)

instance (f : FunctionBase) : Decidable f.sortedIntervals := by
  unfold sortedIntervals; infer_instance

theorem negate_lower_bound (f : FunctionBase) (x : ℚ) :
    f.negate.lower_bound x = (f.lower_bound x).map (fun p => (p.1, -p.2)) := by
  unfold lower_bound negate
  rw [List.filter_map, ← List.getLast?_map]
  rfl

theorem negate_upper_bound (f : FunctionBase) (x : ℚ) :
    f.negate.upper_bound x = (f.upper_bound x).map (fun p => (p.1, -p.2)) := by
  unfold upper_bound negate
  rw [List.filter_map, ← List.head?_map]
  rfl

/-- The observable effect of `negate`: values are negated pointwise
(the breakpoint arguments are untouched, so evaluation aligns). -/
theorem negate_value (f : FunctionBase) (x : ℚ) :
    f.negate.value x = -(f.value x) := by
  unfold value
  rw [negate_lower_bound, negate_upper_bound]
  rcases hl : f.lower_bound x with _ | ⟨la, lv⟩ <;>
    rcases hu : f.upper_bound x with _ | ⟨ua, uv⟩
  · show (0 : ℚ) = -(0 : ℚ)
    norm_num
  · rfl
  · rfl
  · show (if la = ua then -lv else -lv + (-uv - -lv) * ((x - la) / (ua - la))) =
      -(if la = ua then lv else lv + (uv - lv) * ((x - la) / (ua - la)))
    split_ifs with h
    · rfl
    · ring

/-- In a sorted breakpoint list, the head argument is least. -/
theorem head_arg_le_of_sorted {l : List (ℚ × ℚ)}
    (hs : l.Pairwise (fun p q => p.1 < q.1)) {p q : ℚ × ℚ}
    (hh : l.head? = some p) (hq : q ∈ l) : p.1 ≤ q.1 := by
  cases l with
  | nil => simp at hh
  | cons a t =>
    cases hh
    rcases List.mem_cons.mp hq with rfl | hqt
    · exact le_refl _
    · exact le_of_lt ((List.pairwise_cons.mp hs).1 q hqt)

/-- In a sorted breakpoint list, the last argument is greatest. -/
theorem arg_le_getLast_of_sorted {l : List (ℚ × ℚ)}
    (hs : l.Pairwise (fun p q => p.1 < q.1)) {p q : ℚ × ℚ}
    (hh : l.getLast? = some p) (hq : q ∈ l) : q.1 ≤ p.1 := by
  induction l with
  | nil => simp at hh
  | cons a t ih =>
    cases t with
    | nil =>
      simp at hh hq
      cases hh; cases hq; exact le_refl _
    | cons b t2 =>
      rw [List.getLast?_cons_cons] at hh
      rcases List.mem_cons.mp hq with rfl | hqt
      · have hp : p ∈ b :: t2 := List.mem_of_mem_getLast? hh
        exact le_of_lt ((List.pairwise_cons.mp hs).1 p hp)
      · exact ih (List.pairwise_cons.mp hs).2 hh hqt

/-- When `intersect` reports no crossing: exactly when one curve is
strictly above the other at both cached extremes. -/
theorem intersect_eq_none_iff (f g : FunctionBase) :
    f.intersect g = none ↔
      (f.left_value > g.left_value ∧ f.right_value > g.right_value) ∨
      (f.left_value < g.left_value ∧ f.right_value < g.right_value) := by
  unfold intersect
  by_cases h1 : f.left_value > g.left_value ∧ f.right_value > g.right_value
  · simp [h1]
  · by_cases h2 : f.left_value < g.left_value ∧ f.right_value < g.right_value
    · simp [h1, h2]
    · simp [h1, h2]

/-- Unfolding of the bisection loop at positive fuel. -/
theorem bisectLoop_succ (fS fG : FunctionBase) (n : Nat) (mn mx : ℚ) :
    bisectLoop fS fG (n + 1) mn mx =
      if mx - mn > eps then
        if fS.value ((mn + mx) / 2) < fG.value ((mn + mx) / 2) then
          bisectLoop fS fG n ((mn + mx) / 2) mx
        else bisectLoop fS fG n mn ((mn + mx) / 2)
      else (mn, mx) := rfl

/-- Each bisection iteration halves the bracket exactly, so after `n`
iterations the bracket is `(mx - mn) / 2 ^ n` wide unless the loop guard
already failed. -/
theorem bisectLoop_gap (fS fG : FunctionBase) :
    ∀ (n : Nat) (mn mx : ℚ),
      (bisectLoop fS fG n mn mx).2 - (bisectLoop fS fG n mn mx).1
        ≤ max ((mx - mn) / 2 ^ n) eps := by
  intro n
  induction n with
  | zero =>
    intro mn mx
    simp only [bisectLoop, pow_zero, div_one]
    exact le_max_left _ _
  | succ k ih =>
    intro mn mx
    rw [bisectLoop_succ]
    split_ifs with hgt hval
    · refine le_trans (ih ((mn + mx) / 2) mx) ?_
      have he : (mx - (mn + mx) / 2) / 2 ^ k = (mx - mn) / 2 ^ (k + 1) := by
        rw [pow_succ]
        ring
      rw [he]
    · refine le_trans (ih mn ((mn + mx) / 2)) ?_
      have he : ((mn + mx) / 2 - mn) / 2 ^ k = (mx - mn) / 2 ^ (k + 1) := by
        rw [pow_succ]
        ring
      rw [he]
    · exact le_trans (not_lt.mp hgt) (le_max_right _ _)

/-- The fuel `bisectFuel gap` shrinks a bracket of width `gap` below the
tolerance. -/
theorem bisectFuel_spec (gap : ℚ) : gap / 2 ^ bisectFuel gap ≤ eps := by
  have heps : (0 : ℚ) < eps := by norm_num [eps]
  have hpow : (0 : ℚ) < 2 ^ bisectFuel gap := by positivity
  rcases le_or_lt gap 0 with hg | hg
  · refine le_trans ?_ heps.le
    exact div_nonpos_of_nonpos_of_nonneg hg hpow.le
  · rw [div_le_iff₀ hpow]
    have hq : 0 < gap / eps := div_pos hg heps
    have h1 : gap / eps ≤ (⌈gap / eps⌉.toNat : ℚ) := by
      refine le_trans (Int.le_ceil _) ?_
      exact_mod_cast Int.self_le_toNat _
    have h2 : ((⌈gap / eps⌉.toNat : ℕ) : ℚ)
        < 2 ^ (Nat.log 2 ⌈gap / eps⌉.toNat + 1) := by
      exact_mod_cast Nat.lt_pow_succ_log_self (by norm_num) _
    have h3 : gap / eps < 2 ^ bisectFuel gap := lt_of_le_of_lt h1 h2
    have h4 : (gap / eps) * eps ≤ (2 ^ bisectFuel gap) * eps :=
      mul_le_mul_of_nonneg_right h3.le heps.le
    calc gap = (gap / eps) * eps := by field_simp
    _ ≤ (2 ^ bisectFuel gap) * eps := h4
    _ = eps * 2 ^ bisectFuel gap := by ring

/-- With the canonical fuel, the bisection bracket ends below the
tolerance. -/
theorem bisectLoop_bisectFuel_gap (fS fG : FunctionBase) (mn mx : ℚ) :
    (bisectLoop fS fG (bisectFuel (mx - mn)) mn mx).2
      - (bisectLoop fS fG (bisectFuel (mx - mn)) mn mx).1 ≤ eps := by
  refine le_trans (bisectLoop_gap fS fG (bisectFuel (mx - mn)) mn mx) ?_
  exact max_le (bisectFuel_spec (mx - mn)) (le_refl eps)

end FunctionBase

/-! ## C5: clamped evaluation outside the breakpoint range -/

/-- C5: for a (sorted, non-empty) `Function`, `value` at an argument
below the first breakpoint returns exactly the leftmost breakpoint's
value, and at an argument above the last breakpoint returns exactly the
rightmost breakpoint's value — clamped, never extrapolated. -/
theorem C5_value_clamped_outside_range (f : FunctionBase)
    (hs : f.sortedIntervals) (x : ℚ) (p₀ pn : ℚ × ℚ)
    (h0 : f.intervals.head? = some p₀) (hn : f.intervals.getLast? = some pn) :
    (x < p₀.1 → f.value x = p₀.2) ∧ (pn.1 < x → f.value x = pn.2) := by
  constructor
  · intro hx
    have hlow : f.lower_bound x = none := by
      unfold FunctionBase.lower_bound
      have hfil : f.intervals.filter (fun p => p.1 ≤ x) = [] := by
        refine List.filter_eq_nil_iff.mpr (fun q hq => ?_)
        have := FunctionBase.head_arg_le_of_sorted hs h0 hq
        simp only [decide_eq_true_eq]
        linarith
      rw [hfil]
      rfl
    have hup : f.upper_bound x = some p₀ := by
      unfold FunctionBase.upper_bound
      have hfil : f.intervals.filter (fun p => x ≤ p.1) = f.intervals := by
        refine List.filter_eq_self.mpr (fun q hq => ?_)
        have := FunctionBase.head_arg_le_of_sorted hs h0 hq
        simp only [decide_eq_true_eq]
        linarith
      rw [hfil]
      exact h0
    unfold FunctionBase.value
    rw [hlow, hup]
  · intro hx
    have hlow : f.lower_bound x = some pn := by
      unfold FunctionBase.lower_bound
      have hfil : f.intervals.filter (fun p => p.1 ≤ x) = f.intervals := by
        refine List.filter_eq_self.mpr (fun q hq => ?_)
        have := FunctionBase.arg_le_getLast_of_sorted hs hn hq
        simp only [decide_eq_true_eq]
        linarith
      rw [hfil]
      exact hn
    have hup : f.upper_bound x = none := by
      unfold FunctionBase.upper_bound
      have hfil : f.intervals.filter (fun p => x ≤ p.1) = [] := by
        refine List.filter_eq_nil_iff.mpr (fun q hq => ?_)
        have := FunctionBase.arg_le_getLast_of_sorted hs hn hq
        simp only [decide_eq_true_eq]
        linarith
      rw [hfil]
      rfl
    unfold FunctionBase.value
    rw [hlow, hup]

/-- Witness for C5 on the curve of the Rust test `outside_access_1`. -/
theorem C5_witness :
    (FunctionBase.mk 1 3 2 2 [(1, 3), (2, 2)]).value 0 = 3 ∧
    (FunctionBase.mk 1 3 2 2 [(1, 3), (2, 2)]).value 6 = 2 := by
  have h := C5_value_clamped_outside_range (FunctionBase.mk 1 3 2 2 [(1, 3), (2, 2)])
    (by decide) 0 (1, 3) (2, 2) rfl rfl
  have h' := C5_value_clamped_outside_range (FunctionBase.mk 1 3 2 2 [(1, 3), (2, 2)])
    (by decide) 6 (1, 3) (2, 2) rfl rfl
  exact ⟨h.1 (by norm_num), h'.2 (by norm_num)⟩

/-! ## C4: what `negate` really does -/

/-- C4 counterexample: `negate` does not send the breakpoint `(a, v)` to
`(−a, −v)`, and the claimed identity `negate(f)(−x) = −f(x)` fails at
`x = 5` on a concrete curve: the left-hand side is `−3` while the
right-hand side is `−7`. -/
theorem C4_counterexample :
    exNegate.negate.intervals = [(1, -3), (5, -7)] ∧
    ((-1, -3) ∉ exNegate.negate.intervals ∧ (-5, -7) ∉ exNegate.negate.intervals) ∧
    exNegate.negate.value (-5) = -3 ∧ -(exNegate.value 5) = -7 := by
  refine ⟨rfl, by decide, ?_, ?_⟩ <;> decide

/-- C4 as amended: `negate` keeps every breakpoint argument and negates
its value (`(a, v) ↦ (a, −v)`), negates the two cached boundary
arguments, and leaves the cached boundary values untouched; hence the
negated function evaluated at `x` equals the negation of `f` at the same
`x`. -/
theorem C4_negate_amended (f : FunctionBase) (x : ℚ) :
    f.negate.intervals = f.intervals.map (fun p => (p.1, -p.2)) ∧
    f.negate.left_arg = -f.left_arg ∧ f.negate.right_arg = -f.right_arg ∧
    f.negate.left_value = f.left_value ∧ f.negate.right_value = f.right_value ∧
    f.negate.value x = -(f.value x) :=
  ⟨rfl, rfl, rfl, rfl, rfl, FunctionBase.negate_value f x⟩

/-! ## C6: the absent function is the identity of the operators -/

/-- C6: the absent (zero) `FunctionNullable` is the algebraic identity:
adding it on either side leaves the stored curve (hence every value)
unchanged, and subtracting a function from it negates the function's
values pointwise; no phantom breakpoint arguments are introduced. -/
theorem C6_zero_function_identity (f : FunctionNullable) (x : ℚ) :
    f.add_function FunctionNullable.zero = f ∧
    FunctionNullable.zero.add_function f = f ∧
    (f.add_function FunctionNullable.zero).value x = f.value x ∧
    (FunctionNullable.zero.add_function f).value x = f.value x ∧
    (FunctionNullable.zero.substract_function f).value x = -(f.value x) ∧
    (FunctionNullable.zero.substract_function f).function.map
        (fun fb => fb.intervals.map Prod.fst) =
      f.function.map (fun fb => fb.intervals.map Prod.fst) := by
  have hadd : f.add_function FunctionNullable.zero = f := by
    unfold FunctionNullable.add_function FunctionNullable.zero
    rcases f with ⟨_ | fb⟩ <;> rfl
  have hadd' : FunctionNullable.zero.add_function f = f := by
    unfold FunctionNullable.add_function FunctionNullable.zero
    rcases f with ⟨_ | fb⟩ <;> rfl
  refine ⟨hadd, hadd', by rw [hadd], by rw [hadd'], ?_, ?_⟩
  · rcases f with ⟨_ | fb⟩
    · show (0 : ℚ) = -(0 : ℚ)
      norm_num
    · show fb.negate.value x = -(fb.value x)
      exact FunctionBase.negate_value fb x
  · rcases f with ⟨_ | fb⟩
    · rfl
    · show some ((fb.intervals.map (fun p => (p.1, -p.2))).map Prod.fst) = _
      simp

/-! ## C3: classification of `Demand::intersect(Supply)` -/

/-- C3: with both curves present, `Demand::intersect` yields
`Equilibrium(price, qty, qty)` (equal volumes) when the underlying
intersection finds a crossing; `UnderSupply` when there is no crossing
and demand's rightmost value exceeds supply's; `OverSupply` when there
is no crossing and demand's leftmost value is below supply's; and
`Undefined` in every other non-crossing configuration. -/
theorem C3_intersect_classification (d : Demand) (s : Supply)
    (fd fs : FunctionBase) (hd : d.function.function = some fd)
    (hs : s.function.function = some fs) :
    (∀ p q, d.function.intersect s.function = some (p, q) →
      d.intersect s = .equilibrium p q q) ∧
    (d.function.intersect s.function = none →
      fd.right_value > fs.right_value → d.intersect s = .underSupply) ∧
    (d.function.intersect s.function = none →
      fd.left_value < fs.left_value → d.intersect s = .overSupply) ∧
    (d.function.intersect s.function = none →
      ¬fd.right_value > fs.right_value → ¬fd.left_value < fs.left_value →
      d.intersect s = .undefined) := by
  have hrv : d.function.right_value = fd.right_value := by
    unfold FunctionNullable.right_value; rw [hd]
  have hlv : d.function.left_value = fd.left_value := by
    unfold FunctionNullable.left_value; rw [hd]
  have hrv' : s.function.right_value = fs.right_value := by
    unfold FunctionNullable.right_value; rw [hs]
  have hlv' : s.function.left_value = fs.left_value := by
    unfold FunctionNullable.left_value; rw [hs]
  have hbase : d.function.intersect s.function = fd.intersect fs := by
    unfold FunctionNullable.intersect; rw [hd, hs]
  refine ⟨?_, ?_, ?_, ?_⟩
  · intro p q h
    unfold Demand.intersect
    rw [h]
  · intro h hr
    unfold Demand.intersect
    rw [h, if_pos]
    rw [hrv, hrv']
    exact hr
  · intro h hl
    have hnone := (FunctionBase.intersect_eq_none_iff fd fs).mp (hbase ▸ h)
    have hnr : ¬fd.right_value > fs.right_value := by
      rcases hnone with ⟨h1, _⟩ | ⟨_, h2⟩
      · exact absurd hl (not_lt.mpr (le_of_lt h1))
      · exact not_lt.mpr (le_of_lt h2)
    unfold Demand.intersect
    rw [h, if_neg, if_pos]
    · rw [hlv, hlv']
      exact hl
    · rw [hrv, hrv']
      exact hnr
  · intro h hnr hnl
    unfold Demand.intersect
    rw [h, if_neg, if_neg]
    · rw [hlv, hlv']
      exact hnl
    · rw [hrv, hrv']
      exact hnr

/-- Witness for C3: a constant demand strictly above a constant supply
at both extremes has no crossing and classifies as `UnderSupply`. -/
theorem C3_witness :
    (Demand.mk ⟨some ⟨0, 5, 0, 5, [(0, 5)]⟩⟩).intersect
        (Supply.mk ⟨some ⟨0, 4, 0, 4, [(0, 4)]⟩⟩) = .underSupply :=
  (C3_intersect_classification (Demand.mk ⟨some ⟨0, 5, 0, 5, [(0, 5)]⟩⟩)
    (Supply.mk ⟨some ⟨0, 4, 0, 4, [(0, 4)]⟩⟩) ⟨0, 5, 0, 5, [(0, 5)]⟩
    ⟨0, 4, 0, 4, [(0, 4)]⟩ rfl rfl).2.1 (by decide) (by decide)

/-! ## C10: intersection with an absent aggregate -/

/-- C10: if either aggregate holds no curve, the nullable intersection
yields no crossing, the result is never `Equilibrium`, and the
classification compares boundary values with the absent side's
boundaries equal to zero. -/
theorem C10_absent_curve_no_equilibrium (d : Demand) (s : Supply)
    (h : d.function.function = none ∨ s.function.function = none) :
    d.function.intersect s.function = none ∧
    (∀ p q r, d.intersect s ≠ .equilibrium p q r) ∧
    d.intersect s =
      (if d.function.right_value > s.function.right_value then .underSupply
       else if d.function.left_value < s.function.left_value then .overSupply
       else .undefined) ∧
    (d.function.function = none →
      d.function.left_value = 0 ∧ d.function.right_value = 0) ∧
    (s.function.function = none →
      s.function.left_value = 0 ∧ s.function.right_value = 0) := by
  have hnone : d.function.intersect s.function = none := by
    unfold FunctionNullable.intersect
    rcases h with h | h
    · rw [h]
    · rw [h]
      rcases d.function.function with _ | fb <;> rfl
  refine ⟨hnone, ?_, ?_, ?_, ?_⟩
  · intro p q r
    unfold Demand.intersect
    rw [hnone]
    split_ifs <;> simp
  · unfold Demand.intersect
    rw [hnone]
  · intro hd
    exact ⟨by simp [FunctionNullable.left_value, hd],
      by simp [FunctionNullable.right_value, hd]⟩
  · intro hs2
    exact ⟨by simp [FunctionNullable.left_value, hs2],
      by simp [FunctionNullable.right_value, hs2]⟩

/-! ## C9: initial market construction -/

/-- C9: `Market::new` creates one `CityData` per city of the geography
with empty aggregates; a city whose id appears in the price map starts
in `Equilibrium(seeded price, 0, 0)`, every other city in `Undefined`. -/
theorem C9_market_new (geo : Geography) (prices : List (CityId × ℚ))
    (city : City) (hn : geo.cityIds.Nodup) (hc : city ∈ geo.cities) :
    (Market.new geo prices).cityIdsList = geo.cityIds ∧
    ∃ data, (Market.new geo prices).cities.lookup city.id = some data ∧
      data.demand = Demand.zero ∧ data.supply = Supply.zero ∧
      data.state = (match prices.lookup city.id with
        | some p => MarketState.equilibrium p 0 0
        | none => MarketState.undefined) := by
  have hkeys : (Market.new geo prices).cityIdsList = geo.cityIds := by
    simp [Market.new, Market.cityIdsList, Geography.cityIds, List.map_map]
  have hnd : ((Market.new geo prices).cities.map Prod.fst).Nodup := by
    have h2 : (Market.new geo prices).cities.map Prod.fst
        = (Market.new geo prices).cityIdsList := rfl
    rw [h2, hkeys]
    exact hn
  refine ⟨hkeys, ?_⟩
  rcases hp : prices.lookup city.id with _ | p
  · refine ⟨CityData.new, ?_, rfl, rfl, rfl⟩
    refine lookup_eq_some_of_mem hnd (List.mem_map.mpr ⟨city, hc, ?_⟩)
    show (city.id, _) = _
    rw [hp]
  · refine ⟨{ CityData.new with state := .equilibrium p 0 0 }, ?_, rfl, rfl, rfl⟩
    refine lookup_eq_some_of_mem hnd (List.mem_map.mpr ⟨city, hc, ?_⟩)
    show (city.id, _) = _
    rw [hp]

/-- Witness for C9: a two-city geography with one seeded price. -/
theorem C9_witness :
    ∃ data, (Market.new (Geography.mk [⟨0, "a"⟩, ⟨1, "b"⟩] []) [(1, 9)]).cities.lookup 1
        = some data ∧
      data.demand = Demand.zero ∧ data.supply = Supply.zero ∧
      data.state = MarketState.equilibrium 9 0 0 := by
  have h := C9_market_new (Geography.mk [⟨0, "a"⟩, ⟨1, "b"⟩] []) [(1, 9)]
    ⟨1, "b"⟩ (by decide) (by decide)
  exact h.2

/-! ## DFS infrastructure -/

/-- A property stable under every step of a fold is stable under the
fold. -/
theorem foldl_preserve {α β : Type} (P : β → Prop) (step : β → α → β)
    (hstep : ∀ b a, P b → P (step b a)) :
    ∀ (l : List α) (b : β), P b → P (l.foldl step b) := by
  intro l
  induction l with
  | nil => intro b hb; exact hb
  | cons a t ih => intro b hb; exact ih _ (hstep b a hb)

/-- As `foldl_preserve`, but the step hypothesis may use membership of
the element in the folded list. -/
theorem foldl_preserve_mem {α β : Type} (P : β → Prop) (step : β → α → β) :
    ∀ (l : List α), (∀ b a, a ∈ l → P b → P (step b a)) →
      ∀ b, P b → P (l.foldl step b) := by
  intro l
  induction l with
  | nil =>
    intro _ b hb
    exact hb
  | cons a t ih =>
    intro hstep b hb
    exact ih (fun b2 a2 ha2 => hstep b2 a2 (List.mem_cons_of_mem a ha2)) _
      (hstep b a (List.mem_cons_self a t) hb)

namespace Market

/-- Unfolding of the DFS at zero fuel. -/
theorem calculate_groups_dfs_zero (m : Market) (pos gid : CityId) (d : ℚ)
    (gs : GroupMap) : m.calculate_groups_dfs 0 pos gid d gs = gs := rfl

/-- Unfolding of the DFS at positive fuel. -/
theorem calculate_groups_dfs_succ (m : Market) (fuel : Nat) (pos gid : CityId)
    (d : ℚ) (gs : GroupMap) :
    m.calculate_groups_dfs (fuel + 1) pos gid d gs =
      if (gs.lookup pos).isSome then gs
      else
        (m.geography.connOf pos).foldl
          (fun gs2 conn =>
            if m.connCond conn then
              m.calculate_groups_dfs fuel conn.id_to gid (d + m.connStep conn) gs2
            else gs2)
          ((pos, (gid, d)) :: gs) := rfl

/-- The DFS never disturbs an existing binding. -/
theorem dfs_lookup_mono (m : Market) :
    ∀ (fuel : Nat) (pos gid : CityId) (d : ℚ) (gs : GroupMap)
      (k : CityId) (v : CityId × ℚ), gs.lookup k = some v →
      (m.calculate_groups_dfs fuel pos gid d gs).lookup k = some v := by
  intro fuel
  induction fuel with
  | zero =>
    intro pos gid d gs k v h
    rw [calculate_groups_dfs_zero]
    exact h
  | succ f ih =>
    intro pos gid d gs k v h
    rw [calculate_groups_dfs_succ]
    split_ifs with hv
    · exact h
    · refine foldl_preserve (fun gs2 : GroupMap => gs2.lookup k = some v) _ ?_ _ _ ?_
      · intro b a hb
        dsimp only
        split_ifs with hc
        · exact ih _ _ _ _ _ _ hb
        · exact hb
      · dsimp only
        rw [lookup_cons_eq_if]
        by_cases hk : k = pos
        · subst hk
          rw [h] at hv
          simp at hv
        · rw [if_neg hk]
          exact h

/-- The DFS result binds the starting city (given any fuel at all). -/
theorem dfs_visits (m : Market) (fuel : Nat) (pos gid : CityId) (d : ℚ)
    (gs : GroupMap) :
    ((m.calculate_groups_dfs (fuel + 1) pos gid d gs).lookup pos).isSome := by
  rw [calculate_groups_dfs_succ]
  split_ifs with hv
  · exact hv
  · have h1 : ((pos, (gid, d)) :: gs).lookup pos = some (gid, d) := by
      rw [lookup_cons_eq_if, if_pos rfl]
    have h2 := foldl_preserve (fun gs2 : GroupMap => gs2.lookup pos = some (gid, d))
      (fun gs2 conn =>
        if m.connCond conn then
          m.calculate_groups_dfs fuel conn.id_to gid (d + m.connStep conn) gs2
        else gs2)
      (fun b a hb => by
        dsimp only
        split_ifs with hc
        · exact m.dfs_lookup_mono fuel _ _ _ _ _ _ hb
        · exact hb)
      (m.geography.connOf pos) _ h1
    rw [h2]
    rfl

/-- The DFS preserves distinctness of the map's keys. -/
theorem dfs_keys_nodup (m : Market) :
    ∀ (fuel : Nat) (pos gid : CityId) (d : ℚ) (gs : GroupMap),
      (gs.map Prod.fst).Nodup →
      ((m.calculate_groups_dfs fuel pos gid d gs).map Prod.fst).Nodup := by
  intro fuel
  induction fuel with
  | zero =>
    intro pos gid d gs h
    rw [calculate_groups_dfs_zero]
    exact h
  | succ f ih =>
    intro pos gid d gs h
    rw [calculate_groups_dfs_succ]
    split_ifs with hv
    · exact h
    · refine foldl_preserve (fun gs2 : GroupMap => (gs2.map Prod.fst).Nodup) _ ?_ _ _ ?_
      · intro b a hb
        dsimp only
        split_ifs with hc
        · exact ih _ _ _ _ hb
        · exact hb
      · dsimp only
        rw [List.map_cons]
        refine List.nodup_cons.mpr ⟨?_, h⟩
        intro hmem
        exact hv (lookup_isSome_of_mem_keys hmem)

/-- Every binding added by the DFS carries the group id of the call, and
its offset is reached by a discovery path from the root (provided the
starting city itself is). -/
theorem dfs_new_binding (m : Market) :
    ∀ (fuel : Nat) (pos gid : CityId) (d : ℚ) (gs : GroupMap)
      (k : CityId) (gv : CityId × ℚ),
      gs.lookup k = none →
      (m.calculate_groups_dfs fuel pos gid d gs).lookup k = some gv →
      gv.1 = gid ∧ (m.DiscPath gid pos d → m.DiscPath gid k gv.2) := by
  intro fuel
  induction fuel with
  | zero =>
    intro pos gid d gs k gv hnone hsome
    rw [calculate_groups_dfs_zero, hnone] at hsome
    cases hsome
  | succ f ih =>
    intro pos gid d gs k gv hnone hsome
    rw [calculate_groups_dfs_succ] at hsome
    split_ifs at hsome with hv
    · rw [hnone] at hsome
      cases hsome
    · have hfold : ∀ (l : List Connection), (∀ a ∈ l, a ∈ m.geography.connOf pos) →
          ∀ gs2 : GroupMap,
            (∀ k2 gv2, gs.lookup k2 = none → gs2.lookup k2 = some gv2 →
              gv2.1 = gid ∧ (m.DiscPath gid pos d → m.DiscPath gid k2 gv2.2)) →
            ∀ k2 gv2, gs.lookup k2 = none →
              (l.foldl (fun gs3 conn =>
                  if m.connCond conn then
                    m.calculate_groups_dfs f conn.id_to gid (d + m.connStep conn) gs3
                  else gs3) gs2).lookup k2 = some gv2 →
              gv2.1 = gid ∧ (m.DiscPath gid pos d → m.DiscPath gid k2 gv2.2) := by
        intro l
        induction l with
        | nil =>
          intro _ gs2 hR k2 gv2 hk2 hl2
          exact hR k2 gv2 hk2 hl2
        | cons a t iht =>
          intro hmem gs2 hR k2 gv2 hk2 hl2
          rw [List.foldl_cons] at hl2
          refine iht (fun b hb => hmem b (List.mem_cons_of_mem a hb)) _ ?_ k2 gv2 hk2 hl2
          intro k3 gv3 hk3 hstep
          by_cases hc : m.connCond a
          · rw [if_pos hc] at hstep
            rcases hgs2 : gs2.lookup k3 with _ | gv4
            · have hnew := ih a.id_to gid (d + m.connStep a) gs2 k3 gv3 hgs2 hstep
              refine ⟨hnew.1, fun hp => ?_⟩
              exact hnew.2 (Market.DiscPath.step a hp (hmem a (List.mem_cons_self a t)) hc)
            · have hpres := m.dfs_lookup_mono f a.id_to gid (d + m.connStep a) gs2 k3 gv4 hgs2
              rw [hpres] at hstep
              have heq : gv4 = gv3 := by injection hstep
              rw [← heq]
              exact hR k3 gv4 hk3 hgs2
          · rw [if_neg hc] at hstep
            exact hR k3 gv3 hk3 hstep
      refine hfold (m.geography.connOf pos) (fun a ha => ha) _ ?_ k gv hnone hsome
      intro k2 gv2 hk2 hl2
      rw [lookup_cons_eq_if] at hl2
      by_cases hkp : k2 = pos
      · subst hkp
        rw [if_pos rfl] at hl2
        cases hl2
        exact ⟨rfl, fun hp => hp⟩
      · rw [if_neg hkp, hk2] at hl2
        cases hl2

/-- A lookup misses exactly when the key is not among the keys. -/
theorem lookup_eq_none_iff_not_mem {l : GroupMap} {k : CityId} :
    l.lookup k = none ↔ k ∉ l.map Prod.fst := by
  constructor
  · intro h hmem
    have := lookup_isSome_of_mem_keys hmem
    rw [h] at this
    cases this
  · intro h
    rcases hl : l.lookup k with _ | v
    · rfl
    · exact absurd (mem_keys_of_lookup hl) h

/-- Every DFS measure is positive. -/
theorem dfsBound_pos (m : Market) (gs : GroupMap) : 1 ≤ m.dfsBound gs := by
  unfold dfsBound
  omega

/-- Inserting an unvisited candidate decreases the DFS measure by
exactly one. -/
theorem dfsBound_cons (m : Market) (gs : GroupMap) (pos : CityId)
    (x : CityId × ℚ) (hpos : pos ∈ m.candList) (hnew : gs.lookup pos = none) :
    m.dfsBound ((pos, x) :: gs) + 1 = m.dfsBound gs := by
  unfold dfsBound
  have hkeys : (((pos, x) :: gs).map Prod.fst).toFinset
      = insert pos ((gs.map Prod.fst).toFinset) := by
    simp
  rw [hkeys, Finset.sdiff_insert]
  have hmem : pos ∈ m.candList.toFinset \ (gs.map Prod.fst).toFinset := by
    rw [Finset.mem_sdiff]
    exact ⟨List.mem_toFinset.mpr hpos,
      fun hc => (lookup_eq_none_iff_not_mem.mp hnew) (List.mem_toFinset.mp hc)⟩
  rw [Finset.card_erase_add_one hmem]

/-- The DFS measure only shrinks as the key set grows. -/
theorem dfsBound_le_of_lookup_le (m : Market) (gs gs2 : GroupMap)
    (h : ∀ k, (gs.lookup k).isSome → (gs2.lookup k).isSome) :
    m.dfsBound gs2 ≤ m.dfsBound gs := by
  unfold dfsBound
  have hsub : m.candList.toFinset \ (gs2.map Prod.fst).toFinset
      ⊆ m.candList.toFinset \ (gs.map Prod.fst).toFinset := by
    intro a ha
    rw [Finset.mem_sdiff] at ha ⊢
    refine ⟨ha.1, fun hc => ha.2 ?_⟩
    have h1 := lookup_isSome_of_mem_keys (List.mem_toFinset.mp hc)
    exact List.mem_toFinset.mpr (mem_keys_of_lookup (Option.isSome_iff_exists.mp (h a h1)).choose_spec)
  have := Finset.card_le_card hsub
  omega

/-- The global fuel bound dominates every reachable DFS measure. -/
theorem dfsBound_le_groupsFuel (m : Market) (gs : GroupMap) :
    m.dfsBound gs ≤ m.groupsFuel := by
  unfold dfsBound groupsFuel
  have h1 : (m.candList.toFinset \ (gs.map Prod.fst).toFinset).card
      ≤ m.candList.toFinset.card := Finset.card_le_card Finset.sdiff_subset
  have h2 : m.candList.toFinset.card ≤ m.candList.length := m.candList.toFinset_card_le
  omega

/-- Every connection target is a DFS candidate. -/
theorem target_mem_candList (m : Market) {c : CityId} {conn : Connection}
    (h : conn ∈ m.geography.connOf c) : conn.id_to ∈ m.candList := by
  unfold Market.candList
  refine List.mem_append_right _ ?_
  unfold Geography.connOf at h
  rcases hl : m.geography.connections.lookup c with _ | l
  · rw [hl] at h
    cases h
  · rw [hl] at h
    refine List.mem_flatten.mpr ⟨l.map Connection.id_to, ?_, ?_⟩
    · exact List.mem_map.mpr ⟨(c, l), mem_of_lookup_eq_some hl, rfl⟩
    · exact List.mem_map.mpr ⟨conn, h, rfl⟩

/-- `dfs_visits` for any positive fuel. -/
theorem dfs_visits_of_le (m : Market) (fuel : Nat) (hf : 1 ≤ fuel)
    (pos gid : CityId) (d : ℚ) (gs : GroupMap) :
    ((m.calculate_groups_dfs fuel pos gid d gs).lookup pos).isSome := by
  rcases fuel with _ | f
  · omega
  · exact m.dfs_visits f pos gid d gs

/-- `ScanProp` from a map to itself holds vacuously. -/
theorem scanProp_same (m : Market) (gs : GroupMap) (gid : CityId) :
    m.ScanProp gs gs gid := by
  intro k hk hk2 conn hconn hcond
  exact absurd hk hk2

/-- `ScanProp` composes along growth of the map. -/
theorem scanProp_comp (m : Market) {gsa gsb gsc : GroupMap} {gid : CityId}
    (h1 : m.ScanProp gsa gsb gid) (h2 : m.ScanProp gsb gsc gid)
    (mono12 : ∀ k v, gsb.lookup k = some v → gsc.lookup k = some v)
    (grp1 : ∀ k gv, gsa.lookup k = none → gsb.lookup k = some gv → gv.1 = gid) :
    m.ScanProp gsa gsc gid := by
  intro k hk hk2 conn hconn hcond
  rcases hgsb : gsb.lookup k with _ | v
  · have hstep := h2 k hgsb hk2 conn hconn hcond
    refine ⟨hstep.1, ?_⟩
    rcases hstep.2 with hold | hgrp
    · rcases ht : gsb.lookup conn.id_to with _ | tv
      · exact absurd ht hold
      · rcases hts : gsa.lookup conn.id_to with _ | sv
        · right
          rw [mono12 conn.id_to tv ht]
          rw [Option.map_some']
          rw [grp1 conn.id_to tv hts ht]
        · left
          simp [hts]
    · exact Or.inr hgrp
  · have hkbne : gsb.lookup k ≠ none := by simp [hgsb]
    have hstep := h1 k hk hkbne conn hconn hcond
    refine ⟨?_, ?_⟩
    · rcases ht : gsb.lookup conn.id_to with _ | tv
      · exact absurd ht hstep.1
      · rw [mono12 conn.id_to tv ht]
        simp
    · rcases hstep.2 with hold | hgrp
      · exact Or.inl hold
      · right
        rcases ht : gsb.lookup conn.id_to with _ | tv
        · rw [ht] at hgrp
          cases hgrp
        · rw [ht] at hgrp
          rw [mono12 conn.id_to tv ht]
          exact hgrp

/-- With sufficient fuel, the DFS fully scans every city it inserts:
each qualifying connection out of a newly inserted city leads to a city
present in the result, in the same group unless it predates the call. -/
theorem dfs_scan (m : Market) :
    ∀ (fuel : Nat) (pos gid : CityId) (d : ℚ) (gs : GroupMap),
      m.dfsBound gs ≤ fuel → pos ∈ m.candList →
      m.ScanProp gs (m.calculate_groups_dfs fuel pos gid d gs) gid := by
  intro fuel
  induction fuel with
  | zero =>
    intro pos gid d gs hb hpos
    have := m.dfsBound_pos gs
    omega
  | succ f ih =>
    intro pos gid d gs hb hpos
    rw [calculate_groups_dfs_succ]
    split_ifs with hv
    · exact m.scanProp_same gs gid
    · have hvnone : gs.lookup pos = none := by
        rcases h : gs.lookup pos with _ | v
        · rfl
        · rw [h] at hv
          simp at hv
      have hb1 : m.dfsBound ((pos, (gid, d)) :: gs) + 1 = m.dfsBound gs :=
        m.dfsBound_cons gs pos (gid, d) hpos hvnone
      have hbf : m.dfsBound ((pos, (gid, d)) :: gs) ≤ f := by omega
      have hf1 : 1 ≤ f := by
        have := m.dfsBound_pos ((pos, (gid, d)) :: gs)
        omega
      have hfold : ∀ (l : List Connection), (∀ a ∈ l, a ∈ m.geography.connOf pos) →
          ∀ gs2 : GroupMap, m.dfsBound gs2 ≤ f →
            (∀ k v, ((pos, (gid, d)) :: gs).lookup k = some v → gs2.lookup k = some v) →
            (∀ k gv, ((pos, (gid, d)) :: gs).lookup k = none →
              gs2.lookup k = some gv → gv.1 = gid) →
            m.ScanProp ((pos, (gid, d)) :: gs) gs2 gid →
            (m.ScanProp ((pos, (gid, d)) :: gs)
              (l.foldl (fun gs3 conn =>
                if m.connCond conn then
                  m.calculate_groups_dfs f conn.id_to gid (d + m.connStep conn) gs3
                else gs3) gs2) gid ∧
             (∀ k v, gs2.lookup k = some v →
               (l.foldl (fun gs3 conn =>
                 if m.connCond conn then
                   m.calculate_groups_dfs f conn.id_to gid (d + m.connStep conn) gs3
                 else gs3) gs2).lookup k = some v) ∧
             (∀ k gv, ((pos, (gid, d)) :: gs).lookup k = none →
               (l.foldl (fun gs3 conn =>
                 if m.connCond conn then
                   m.calculate_groups_dfs f conn.id_to gid (d + m.connStep conn) gs3
                 else gs3) gs2).lookup k = some gv → gv.1 = gid) ∧
             (∀ conn ∈ l, m.connCond conn →
               (l.foldl (fun gs3 conn2 =>
                 if m.connCond conn2 then
                   m.calculate_groups_dfs f conn2.id_to gid (d + m.connStep conn2) gs3
                 else gs3) gs2).lookup conn.id_to ≠ none ∧
               (((pos, (gid, d)) :: gs).lookup conn.id_to ≠ none ∨
                 ((l.foldl (fun gs3 conn2 =>
                   if m.connCond conn2 then
                     m.calculate_groups_dfs f conn2.id_to gid (d + m.connStep conn2) gs3
                   else gs3) gs2).lookup conn.id_to).map Prod.fst = some gid))) := by
        intro l
        induction l with
        | nil =>
          intro _ gs2 hb2 hmono hgrp hscan
          refine ⟨hscan, fun k v h => h, hgrp, ?_⟩
          intro conn hconn
          cases hconn
        | cons a t iht =>
          intro hmem gs2 hb2 hmono hgrp hscan
          by_cases hc : m.connCond a
          · have hstepMono : ∀ k v, gs2.lookup k = some v →
                (m.calculate_groups_dfs f a.id_to gid (d + m.connStep a) gs2).lookup k = some v :=
              fun k v h => m.dfs_lookup_mono f a.id_to gid (d + m.connStep a) gs2 k v h
            have hstepBound :
                m.dfsBound (m.calculate_groups_dfs f a.id_to gid (d + m.connStep a) gs2) ≤ f := by
              refine le_trans (m.dfsBound_le_of_lookup_le gs2 _ ?_) hb2
              intro k hk
              rcases Option.isSome_iff_exists.mp hk with ⟨v, hv2⟩
              rw [hstepMono k v hv2]
              rfl
            have hstepGrp : ∀ k gv, ((pos, (gid, d)) :: gs).lookup k = none →
                (m.calculate_groups_dfs f a.id_to gid (d + m.connStep a) gs2).lookup k = some gv →
                gv.1 = gid := by
              intro k gv hk1 hk2
              rcases hgs2 : gs2.lookup k with _ | v
              · exact (m.dfs_new_binding f a.id_to gid (d + m.connStep a) gs2 k gv hgs2 hk2).1
              · rw [hstepMono k v hgs2] at hk2
                injection hk2 with heq
                rw [← heq]
                exact hgrp k v hk1 hgs2
            have hstepScan :
                m.ScanProp ((pos, (gid, d)) :: gs)
                  (m.calculate_groups_dfs f a.id_to gid (d + m.connStep a) gs2) gid := by
              refine m.scanProp_comp hscan ?_ hstepMono ?_
              · exact ih a.id_to gid (d + m.connStep a) gs2 hb2
                  (m.target_mem_candList (hmem a (List.mem_cons_self a t)))
              · intro k gv hk1 hk2
                exact hgrp k gv hk1 hk2
            have hrec := iht (fun b hb3 => hmem b (List.mem_cons_of_mem a hb3))
              (m.calculate_groups_dfs f a.id_to gid (d + m.connStep a) gs2)
              hstepBound
              (fun k v h => hstepMono k v (hmono k v h))
              hstepGrp
              hstepScan
            simp only [List.foldl_cons]
            rw [if_pos hc]
            refine ⟨hrec.1, ?_, hrec.2.2.1, ?_⟩
            · intro k v h
              exact hrec.2.1 k v (hstepMono k v h)
            · intro conn hconn hcond2
              rcases List.mem_cons.mp hconn with rfl | hct
              · have hpresent :
                    ((m.calculate_groups_dfs f conn.id_to gid (d + m.connStep conn) gs2).lookup
                      conn.id_to).isSome :=
                  m.dfs_visits_of_le f hf1 conn.id_to gid (d + m.connStep conn) gs2
                rcases Option.isSome_iff_exists.mp hpresent with ⟨tv, htv⟩
                have hfin := hrec.2.1 conn.id_to tv htv
                refine ⟨by rw [hfin]; simp, ?_⟩
                rcases ht1 : ((pos, (gid, d)) :: gs).lookup conn.id_to with _ | sv
                · right
                  rw [hfin, Option.map_some']
                  rw [hstepGrp conn.id_to tv ht1 htv]
                · left
                  simp [ht1]
              · exact hrec.2.2.2 conn hct hcond2
          · have hrec := iht (fun b hb3 => hmem b (List.mem_cons_of_mem a hb3))
              gs2 hb2 hmono hgrp hscan
            simp only [List.foldl_cons]
            rw [if_neg hc]
            refine ⟨hrec.1, hrec.2.1, hrec.2.2.1, ?_⟩
            intro conn hconn hcond2
            rcases List.mem_cons.mp hconn with rfl | hct
            · exact absurd hcond2 hc
            · exact hrec.2.2.2 conn hct hcond2
      have hres := hfold (m.geography.connOf pos) (fun a ha => ha)
        ((pos, (gid, d)) :: gs) hbf (fun k v h => h)
        (fun k gv h1 h2 => by rw [h1] at h2; cases h2)
        (m.scanProp_same _ gid)
      intro k hknone hkfin conn hconn hcond
      have hconvert : ∀ t : CityId,
          (((pos, (gid, d)) :: gs).lookup t ≠ none ∨
            ((((m.geography.connOf pos)).foldl (fun gs3 conn2 =>
              if m.connCond conn2 then
                m.calculate_groups_dfs f conn2.id_to gid (d + m.connStep conn2) gs3
              else gs3) ((pos, (gid, d)) :: gs)).lookup t).map Prod.fst = some gid) →
          (gs.lookup t ≠ none ∨
            ((((m.geography.connOf pos)).foldl (fun gs3 conn2 =>
              if m.connCond conn2 then
                m.calculate_groups_dfs f conn2.id_to gid (d + m.connStep conn2) gs3
              else gs3) ((pos, (gid, d)) :: gs)).lookup t).map Prod.fst = some gid) := by
        intro t ht
        rcases ht with ht | ht
        · by_cases htp : t = pos
          · right
            have hfin := hres.2.1 pos (gid, d) (by rw [lookup_cons_eq_if, if_pos rfl])
            rw [htp, hfin, Option.map_some']
          · left
            rw [lookup_cons_eq_if, if_neg htp] at ht
            exact ht
        · exact Or.inr ht
      by_cases hkp : k = pos
      · subst hkp
        have h4 := hres.2.2.2 conn hconn hcond
        exact ⟨h4.1, hconvert conn.id_to h4.2⟩
      · have hk1 : ((pos, (gid, d)) :: gs).lookup k = none := by
          rw [lookup_cons_eq_if, if_neg hkp]
          exact hknone
        have h1 := hres.1 k hk1 hkfin conn hconn hcond
        exact ⟨h1.1, hconvert conn.id_to h1.2⟩

/-- The DFS stays inside any set of cities closed under qualifying
connections. -/
theorem dfs_closed (m : Market) (T : CityId → Prop)
    (hT : ∀ c, T c → ∀ conn ∈ m.geography.connOf c, m.connCond conn → T conn.id_to) :
    ∀ (fuel : Nat) (pos gid : CityId) (d : ℚ) (gs : GroupMap),
      T pos → (∀ k gv, gs.lookup k = some gv → T k) →
      ∀ k gv, (m.calculate_groups_dfs fuel pos gid d gs).lookup k = some gv → T k := by
  intro fuel
  induction fuel with
  | zero =>
    intro pos gid d gs hpos hgs k gv h
    rw [calculate_groups_dfs_zero] at h
    exact hgs k gv h
  | succ f ih =>
    intro pos gid d gs hpos hgs k gv h
    rw [calculate_groups_dfs_succ] at h
    split_ifs at h with hv
    · exact hgs k gv h
    · have hfold : ∀ (l : List Connection), (∀ a ∈ l, a ∈ m.geography.connOf pos) →
          ∀ gs2 : GroupMap, (∀ k2 gv2, gs2.lookup k2 = some gv2 → T k2) →
          ∀ k2 gv2,
            (l.foldl (fun gs3 conn =>
                if m.connCond conn then
                  m.calculate_groups_dfs f conn.id_to gid (d + m.connStep conn) gs3
                else gs3) gs2).lookup k2 = some gv2 → T k2 := by
        intro l
        induction l with
        | nil =>
          intro _ gs2 hI k2 gv2 hl2
          exact hI k2 gv2 hl2
        | cons a t iht =>
          intro hmem gs2 hI k2 gv2 hl2
          rw [List.foldl_cons] at hl2
          refine iht (fun b hb => hmem b (List.mem_cons_of_mem a hb)) _ ?_ k2 gv2 hl2
          intro k3 gv3 hstep
          by_cases hc : m.connCond a
          · rw [if_pos hc] at hstep
            exact ih a.id_to gid (d + m.connStep a) gs2
              (hT pos hpos a (hmem a (List.mem_cons_self a t)) hc) hI k3 gv3 hstep
          · rw [if_neg hc] at hstep
            exact hI k3 gv3 hstep
      refine hfold (m.geography.connOf pos) (fun a ha => ha) _ ?_ k gv h
      intro k2 gv2 hl2
      rw [lookup_cons_eq_if] at hl2
      by_cases hkp : k2 = pos
      · subst hkp
        exact hpos
      · rw [if_neg hkp] at hl2
        exact hgs k2 gv2 hl2

/-- Beyond the measure of the current map, the exact fuel is
irrelevant: the recursion has terminated before running out. -/
theorem dfs_fuel_eq (m : Market) :
    ∀ (fuel1 fuel2 : Nat) (pos gid : CityId) (d : ℚ) (gs : GroupMap),
      m.dfsBound gs ≤ fuel1 → m.dfsBound gs ≤ fuel2 → pos ∈ m.candList →
      m.calculate_groups_dfs fuel1 pos gid d gs
        = m.calculate_groups_dfs fuel2 pos gid d gs := by
  intro fuel1
  induction fuel1 with
  | zero =>
    intro fuel2 pos gid d gs h1 h2 hpos
    have := m.dfsBound_pos gs
    omega
  | succ f1 ih =>
    intro fuel2 pos gid d gs h1 h2 hpos
    rcases fuel2 with _ | f2
    · have := m.dfsBound_pos gs
      omega
    · rw [calculate_groups_dfs_succ, calculate_groups_dfs_succ]
      split_ifs with hv
      · rfl
      · have hvnone : gs.lookup pos = none := by
          rcases h : gs.lookup pos with _ | v
          · rfl
          · rw [h] at hv
            simp at hv
        have hb1 : m.dfsBound ((pos, (gid, d)) :: gs) + 1 = m.dfsBound gs :=
          m.dfsBound_cons gs pos (gid, d) hpos hvnone
        have hfold : ∀ (l : List Connection), (∀ a ∈ l, a ∈ m.geography.connOf pos) →
            ∀ gs2 : GroupMap, m.dfsBound gs2 ≤ f1 → m.dfsBound gs2 ≤ f2 →
              (l.foldl (fun gs3 conn =>
                  if m.connCond conn then
                    m.calculate_groups_dfs f1 conn.id_to gid (d + m.connStep conn) gs3
                  else gs3) gs2
                = l.foldl (fun gs3 conn =>
                  if m.connCond conn then
                    m.calculate_groups_dfs f2 conn.id_to gid (d + m.connStep conn) gs3
                  else gs3) gs2) ∧
              (∀ k v, gs2.lookup k = some v →
                (l.foldl (fun gs3 conn =>
                  if m.connCond conn then
                    m.calculate_groups_dfs f1 conn.id_to gid (d + m.connStep conn) gs3
                  else gs3) gs2).lookup k = some v) := by
          intro l
          induction l with
          | nil =>
            intro _ gs2 hb2 hb3
            exact ⟨rfl, fun k v h => h⟩
          | cons a t iht =>
            intro hmem gs2 hb2 hb3
            by_cases hc : m.connCond a
            · have heqstep : m.calculate_groups_dfs f1 a.id_to gid (d + m.connStep a) gs2
                  = m.calculate_groups_dfs f2 a.id_to gid (d + m.connStep a) gs2 :=
                ih f2 a.id_to gid (d + m.connStep a) gs2 hb2 hb3
                  (m.target_mem_candList (hmem a (List.mem_cons_self a t)))
              have hstepMono : ∀ k v, gs2.lookup k = some v →
                  (m.calculate_groups_dfs f1 a.id_to gid (d + m.connStep a) gs2).lookup k
                    = some v :=
                fun k v h => m.dfs_lookup_mono f1 a.id_to gid (d + m.connStep a) gs2 k v h
              have hstepBound1 :
                  m.dfsBound (m.calculate_groups_dfs f1 a.id_to gid (d + m.connStep a) gs2)
                    ≤ f1 := by
                refine le_trans (m.dfsBound_le_of_lookup_le gs2 _ ?_) hb2
                intro k hk
                rcases Option.isSome_iff_exists.mp hk with ⟨v, hv2⟩
                rw [hstepMono k v hv2]
                rfl
              have hstepBound2 :
                  m.dfsBound (m.calculate_groups_dfs f1 a.id_to gid (d + m.connStep a) gs2)
                    ≤ f2 := by
                refine le_trans (m.dfsBound_le_of_lookup_le gs2 _ ?_) hb3
                intro k hk
                rcases Option.isSome_iff_exists.mp hk with ⟨v, hv2⟩
                rw [hstepMono k v hv2]
                rfl
              have hrec := iht (fun b hb4 => hmem b (List.mem_cons_of_mem a hb4))
                (m.calculate_groups_dfs f1 a.id_to gid (d + m.connStep a) gs2)
                hstepBound1 hstepBound2
              constructor
              · simp only [List.foldl_cons]
                rw [if_pos hc, if_pos hc, ← heqstep]
                exact hrec.1
              · intro k v h
                simp only [List.foldl_cons]
                rw [if_pos hc]
                exact hrec.2 k v (hstepMono k v h)
            · have hrec := iht (fun b hb4 => hmem b (List.mem_cons_of_mem a hb4))
                gs2 hb2 hb3
              constructor
              · simp only [List.foldl_cons]
                rw [if_neg hc, if_neg hc]
                exact hrec.1
              · intro k v h
                simp only [List.foldl_cons]
                rw [if_neg hc]
                exact hrec.2 k v h
        exact (hfold (m.geography.connOf pos) (fun a ha => ha)
          ((pos, (gid, d)) :: gs) (by omega) (by omega)).1

/-- Bindings survive the whole group-accumulation loop. -/
theorem calc_fold_lookup_mono (m : Market) (l : List CityId) (fuel : Nat)
    (gs : GroupMap) (k : CityId) (v : CityId × ℚ) (h : gs.lookup k = some v) :
    (l.foldl (fun gs2 i => m.calculate_groups_dfs fuel i i 0 gs2) gs).lookup k = some v :=
  foldl_preserve (fun gs2 : GroupMap => gs2.lookup k = some v) _
    (fun b a hb => m.dfs_lookup_mono fuel a a 0 b k v hb) l gs h

/-- Every city of the market map ends up bound by `calculate_groups`. -/
theorem calc_groups_map_total (m : Market) (c : CityId) (hc : c ∈ m.cityIdsList) :
    ∃ gd, m.calculate_groups_map.lookup c = some gd := by
  unfold calculate_groups_map
  rcases List.mem_iff_append.mp hc with ⟨l1, l2, hl⟩
  rw [hl, List.foldl_append, List.foldl_cons]
  have h1 := m.dfs_visits_of_le m.groupsFuel (by unfold groupsFuel; omega) c c 0
    (l1.foldl (fun gs2 i => m.calculate_groups_dfs m.groupsFuel i i 0 gs2) [])
  rcases Option.isSome_iff_exists.mp h1 with ⟨gd, hgd⟩
  exact ⟨gd, m.calc_fold_lookup_mono l2 m.groupsFuel _ c gd hgd⟩

/-- Every binding of the final group map records a discovery path from
its group's root, with the offset equal to the signed sum of transport
costs along the path. -/
theorem calc_groups_map_path (m : Market) :
    ∀ k gv, m.calculate_groups_map.lookup k = some gv →
      m.DiscPath gv.1 k gv.2 := by
  unfold calculate_groups_map
  refine foldl_preserve
    (fun gs : GroupMap => ∀ k gv, gs.lookup k = some gv → m.DiscPath gv.1 k gv.2) _
    ?_ m.cityIdsList [] (by intro k gv h; cases h)
  intro gs i hgs k gv h
  rcases hold : gs.lookup k with _ | gv0
  · have hnew := m.dfs_new_binding m.groupsFuel i i 0 gs k gv hold h
    rw [hnew.1]
    exact hnew.2 Market.DiscPath.base
  · have := m.dfs_lookup_mono m.groupsFuel i i 0 gs k gv0 hold
    rw [this] at h
    injection h with heq
    rw [← heq]
    exact hgs k gv0 hold

/-- Under a well-formed market, the group map's keys are cities of the
geography. -/
theorem calc_groups_map_keys (m : Market) (hwf : m.wf) :
    ∀ k gv, m.calculate_groups_map.lookup k = some gv →
      k ∈ m.geography.cityIds := by
  unfold calculate_groups_map
  refine foldl_preserve_mem
    (fun gs : GroupMap => ∀ k gv, gs.lookup k = some gv → k ∈ m.geography.cityIds) _
    m.cityIdsList ?_ [] (by intro k gv h; cases h)
  intro gs i hi hgs k gv h
  refine m.dfs_closed (fun c => c ∈ m.geography.cityIds) ?_ m.groupsFuel i i 0 gs ?_ hgs k gv h
  · intro c hcmem conn hconn hcond
    exact ((hwf.1.2 c hcmem conn hconn).2).1
  · rw [← hwf.2]
    exact hi

/-- The whole accumulation loop preserves key distinctness. -/
theorem calc_groups_map_nodup (m : Market) :
    (m.calculate_groups_map.map Prod.fst).Nodup :=
  foldl_preserve (fun gs : GroupMap => (gs.map Prod.fst).Nodup) _
    (fun b a hb => m.dfs_keys_nodup m.groupsFuel a a 0 b hb) m.cityIdsList []
    (by simp)

/-- `setCityState` updates exactly the targeted key's state. -/
theorem lookup_setCityState (cities : List (CityId × CityData)) (c k : CityId)
    (s : MarketState) :
    (setCityState cities c s).lookup k
      = if k = c then (cities.lookup k).map (fun d => { d with state := s })
        else cities.lookup k := by
  induction cities with
  | nil =>
    show (List.lookup k [] : Option CityData) = _
    rw [List.lookup]
    split_ifs <;> rfl
  | cons a t ih =>
    show ((if a.1 = c then (a.1, { a.2 with state := s }) else a) :: setCityState t c s).lookup k = _
    rw [lookup_cons_eq_if]
    by_cases hac : a.1 = c
    · rw [if_pos hac]
      by_cases hk : k = a.1
      · rw [if_pos hk, if_pos (by rw [hk, hac]), lookup_cons_eq_if, if_pos hk]
        rfl
      · rw [if_neg hk, ih, lookup_cons_eq_if, if_neg hk]
    · rw [if_neg hac]
      by_cases hk : k = a.1
      · have hkc : ¬ k = c := by rw [hk]; exact hac
        rw [if_pos hk, if_neg hkc, lookup_cons_eq_if, if_pos hk]
      · rw [if_neg hk, ih, lookup_cons_eq_if, if_neg hk]

/-- `pushEntry` leaves the group keys unchanged. -/
theorem pushEntry_keys (ls : List (CityId × List (CityId × ℚ))) (g : CityId)
    (e : CityId × ℚ) :
    (pushEntry ls g e).map Prod.fst = ls.map Prod.fst := by
  unfold pushEntry
  rw [List.map_map]
  refine List.map_congr_left ?_
  intro p hp
  by_cases h : p.1 = g <;> simp [h]

/-- Membership in a `pushEntry` result, traced back to the input. -/
theorem mem_pushEntry (ls : List (CityId × List (CityId × ℚ))) (g0 : CityId)
    (e : CityId × ℚ) (g : CityId) (mem : List (CityId × ℚ))
    (h : (g, mem) ∈ pushEntry ls g0 e) :
    ∃ mem0, (g, mem0) ∈ ls ∧ (mem = mem0 ∨ (g = g0 ∧ mem = mem0 ++ [e])) := by
  unfold pushEntry at h
  rcases List.mem_map.mp h with ⟨p, hp, hfp⟩
  by_cases hpg : p.1 = g0
  · rw [if_pos hpg] at hfp
    have h1 : p.1 = g := congrArg Prod.fst hfp
    have h2 : p.2 ++ [e] = mem := congrArg Prod.snd hfp
    refine ⟨p.2, ?_, Or.inr ⟨by rw [← h1]; exact hpg, h2.symm⟩⟩
    rw [← h1]
    exact hp
  · rw [if_neg hpg] at hfp
    exact ⟨mem, hfp ▸ hp, Or.inl rfl⟩

/-- The group lists are keyed by exactly the market's city ids. -/
theorem calculate_groups_keys (m : Market) :
    m.calculate_groups.map Prod.fst = m.cityIdsList := by
  unfold calculate_groups
  refine foldl_preserve
    (fun ls : List (CityId × List (CityId × ℚ)) => ls.map Prod.fst = m.cityIdsList) _
    ?_ _ _ ?_
  · intro b a hb
    rw [pushEntry_keys]
    exact hb
  · show List.map Prod.fst (m.cityIdsList.map (fun i => (i, []))) = m.cityIdsList
    rw [List.map_map]
    rw [show (Prod.fst ∘ fun i : CityId => (i, ([] : List (CityId × ℚ)))) = id from rfl]
    exact List.map_id _

/-- Every entry of a group's member list is exactly that city's binding
in the DFS group map. -/
theorem calculate_groups_mem_lookup (m : Market)
    (g : CityId) (members : List (CityId × ℚ))
    (hg : (g, members) ∈ m.calculate_groups)
    (c : CityId) (dc : ℚ) (hc : (c, dc) ∈ members) :
    m.calculate_groups_map.lookup c = some (g, dc) := by
  have hperm : List.Perm
      (m.calculate_groups_map.insertionSort (fun a b => a.1 ≤ b.1))
      m.calculate_groups_map :=
    List.perm_insertionSort _ m.calculate_groups_map
  have hmain : ∀ g2 mem2, (g2, mem2) ∈ m.calculate_groups →
      ∀ c2 dc2, (c2, dc2) ∈ mem2 →
      (c2, (g2, dc2)) ∈ m.calculate_groups_map.insertionSort (fun a b => a.1 ≤ b.1) := by
    unfold calculate_groups
    refine foldl_preserve_mem
      (fun ls : List (CityId × List (CityId × ℚ)) =>
        ∀ g2 mem2, (g2, mem2) ∈ ls → ∀ c2 dc2, (c2, dc2) ∈ mem2 →
          (c2, (g2, dc2)) ∈ m.calculate_groups_map.insertionSort (fun a b => a.1 ≤ b.1)) _
      (m.calculate_groups_map.insertionSort (fun a b => a.1 ≤ b.1)) ?_
      (m.cityIdsList.map (fun i => (i, []))) ?_
    · intro ls e he hP g2 mem2 hmem2 c2 dc2 hc2
      rcases mem_pushEntry ls e.2.1 (e.1, e.2.2) g2 mem2 hmem2 with ⟨mem0, hmem0, hcase⟩
      rcases hcase with heq | ⟨hge, hmem⟩
      · rw [heq] at hc2
        exact hP g2 mem0 hmem0 c2 dc2 hc2
      · rw [hmem] at hc2
        rcases List.mem_append.mp hc2 with hold | hnew
        · exact hP g2 mem0 hmem0 c2 dc2 hold
        · have : (c2, dc2) = (e.1, e.2.2) := List.mem_singleton.mp hnew
          have h1 : c2 = e.1 := congrArg Prod.fst this
          have h2 : dc2 = e.2.2 := congrArg Prod.snd this
          rw [h1, h2, hge]
          have : (e.1, (e.2.1, e.2.2)) = e := by
            rcases e with ⟨e1, e2, e3⟩
            rfl
          rw [this]
          exact he
    · intro g2 mem2 hmem2 c2 dc2 hc2
      rcases List.mem_map.mp hmem2 with ⟨i, _, hip⟩
      have : mem2 = [] := (congrArg Prod.snd hip).symm
      rw [this] at hc2
      cases hc2
  have hmem := hperm.mem_iff.mp (hmain g members hg c dc hc)
  exact lookup_eq_some_of_mem m.calc_groups_map_nodup hmem

/-- Two group lists with the same key coincide. -/
theorem calculate_groups_members_eq (m : Market) (hnd : m.cityIdsList.Nodup)
    (g : CityId) (mem1 mem2 : List (CityId × ℚ))
    (h1 : (g, mem1) ∈ m.calculate_groups) (h2 : (g, mem2) ∈ m.calculate_groups) :
    mem1 = mem2 := by
  have hk : (m.calculate_groups.map Prod.fst).Nodup := by
    rw [calculate_groups_keys]
    exact hnd
  have e1 := lookup_eq_some_of_mem hk h1
  have e2 := lookup_eq_some_of_mem hk h2
  rw [e1] at e2
  injection e2

/-- The effective-price pair of the DFS is swap-equivariant in the two
states. -/
theorem effectivePrices_swap (a b : MarketState) :
    effectivePrices b a = ((effectivePrices a b).2, (effectivePrices a b).1) := by
  cases a <;> cases b <;> rfl

/-- The DFS descent condition is symmetric in the edge's direction. -/
theorem connCond_swap (m : Market) (conn : Connection) :
    m.connCond ⟨conn.id_to, conn.id_from, conn.cost⟩ ↔ m.connCond conn := by
  simp only [connCond]
  rw [effectivePrices_swap (m.stateOf conn.id_from) (m.stateOf conn.id_to)]
  exact or_comm

/-- The arbitrage-closure invariant of the final group map: every
qualifying connection out of a bound city leads to a bound city of the
same group. -/
theorem calc_groups_map_inv (m : Market) (hwf : m.wf) :
    ∀ k gv, m.calculate_groups_map.lookup k = some gv →
      ∀ conn ∈ m.geography.connOf k, m.connCond conn →
      ∃ gv2, m.calculate_groups_map.lookup conn.id_to = some gv2 ∧ gv2.1 = gv.1 := by
  have hmain : (∀ k gv, m.calculate_groups_map.lookup k = some gv →
        ∀ conn ∈ m.geography.connOf k, m.connCond conn →
        ∃ gv2, m.calculate_groups_map.lookup conn.id_to = some gv2 ∧ gv2.1 = gv.1) ∧
      (∀ k gv, m.calculate_groups_map.lookup k = some gv → k ∈ m.geography.cityIds) := by
    unfold calculate_groups_map
    refine foldl_preserve_mem
      (fun gs : GroupMap =>
        (∀ k gv, gs.lookup k = some gv →
          ∀ conn ∈ m.geography.connOf k, m.connCond conn →
          ∃ gv2, gs.lookup conn.id_to = some gv2 ∧ gv2.1 = gv.1) ∧
        (∀ k gv, gs.lookup k = some gv → k ∈ m.geography.cityIds)) _
      m.cityIdsList ?_ [] ⟨(by intro k gv h; cases h), (by intro k gv h; cases h)⟩
    intro gs i hi hP
    have hkeys : ∀ k gv,
        (m.calculate_groups_dfs m.groupsFuel i i 0 gs).lookup k = some gv →
        k ∈ m.geography.cityIds := by
      refine m.dfs_closed (fun c => c ∈ m.geography.cityIds) ?_ m.groupsFuel i i 0 gs ?_ hP.2
      · intro c hcmem conn hconn hcond
        exact ((hwf.1.2 c hcmem conn hconn).2).1
      · rw [← hwf.2]
        exact hi
    refine ⟨?_, hkeys⟩
    intro k gv h' conn hconn hcond
    rcases hold : gs.lookup k with _ | gv0
    · -- newly inserted by this iteration's DFS
      have hgrp : gv.1 = i :=
        (m.dfs_new_binding m.groupsFuel i i 0 gs k gv hold h').1
      have hscan := m.dfs_scan m.groupsFuel i i 0 gs (m.dfsBound_le_groupsFuel gs)
        (List.mem_append_left _ hi)
      have hres := hscan k hold (by rw [h']; simp) conn hconn hcond
      rcases hres.2 with hto_old | hmap
      · -- target predates the call: impossible by edge symmetry
        rcases hts : gs.lookup conn.id_to with _ | gvt
        · exact absurd hts hto_old
        · have hkcity : k ∈ m.geography.cityIds := hkeys k gv h'
          have hwfc := hwf.1.2 k hkcity conn hconn
          have hcondrev : m.connCond ⟨conn.id_to, conn.id_from, conn.cost⟩ :=
            (m.connCond_swap conn).mpr hcond
          rcases hP.1 conn.id_to gvt hts ⟨conn.id_to, conn.id_from, conn.cost⟩
            hwfc.2.2 hcondrev with ⟨gvk, hk2, _⟩
          rw [hwfc.1] at hk2
          rw [hold] at hk2
          cases hk2
      · rcases Option.map_eq_some'.mp hmap with ⟨gv2, hto, heq⟩
        exact ⟨gv2, hto, by rw [heq, hgrp]⟩
    · -- an old binding: the invariant predates the call
      have hpres := m.dfs_lookup_mono m.groupsFuel i i 0 gs k gv0 hold
      rw [hpres] at h'
      injection h' with heq
      rcases hP.1 k gv0 hold conn hconn hcond with ⟨gv2, h2, hgrp2⟩
      exact ⟨gv2, m.dfs_lookup_mono m.groupsFuel i i 0 gs conn.id_to gv2 h2,
        by rw [← heq]; exact hgrp2⟩
  exact hmain.1

/-- Beyond the sufficient bound, the whole accumulation loop is
fuel-independent: the recursion of the source has terminated. -/
theorem calc_groups_map_fuel_irrel (m : Market) (fuel : Nat)
    (hf : m.groupsFuel ≤ fuel) :
    m.cityIdsList.foldl (fun gs i => m.calculate_groups_dfs fuel i i 0 gs) []
      = m.calculate_groups_map := by
  unfold calculate_groups_map
  have hgen : ∀ l : List CityId, (∀ i ∈ l, i ∈ m.cityIdsList) → ∀ gs : GroupMap,
      l.foldl (fun gs2 i => m.calculate_groups_dfs fuel i i 0 gs2) gs
        = l.foldl (fun gs2 i => m.calculate_groups_dfs m.groupsFuel i i 0 gs2) gs := by
    intro l
    induction l with
    | nil =>
      intro _ gs
      rfl
    | cons a t iht =>
      intro hmem gs
      simp only [List.foldl_cons]
      rw [m.dfs_fuel_eq fuel m.groupsFuel a a 0 gs
        (le_trans (m.dfsBound_le_groupsFuel gs) hf) (m.dfsBound_le_groupsFuel gs)
        (List.mem_append_left _ (hmem a (List.mem_cons_self a t)))]
      exact iht (fun b hb => hmem b (List.mem_cons_of_mem a hb)) _
  exact hgen m.cityIdsList (fun i h => h) []

/-- The member write-back loop of one group: every write to `c` writes
`s`, so `c`'s entry either keeps its original data or carries state `s`;
once (or if ever) written, it stays written. -/
theorem member_fold_char (m : Market) (c : CityId) (data0 : CityData)
    (s sg : MarketState) :
    ∀ (mem : List (CityId × ℚ)),
      (∀ dc', (c, dc') ∈ mem → m.memberState sg (c, dc') = s) →
      ∀ cs : List (CityId × CityData),
        (cs.lookup c = some data0 ∨ cs.lookup c = some { data0 with state := s }) →
        ((mem.foldl (fun cs3 e => setCityState cs3 e.1 (m.memberState sg e)) cs).lookup c
            = some data0 ∨
          (mem.foldl (fun cs3 e => setCityState cs3 e.1 (m.memberState sg e)) cs).lookup c
            = some { data0 with state := s }) ∧
        (cs.lookup c = some { data0 with state := s } →
          (mem.foldl (fun cs3 e => setCityState cs3 e.1 (m.memberState sg e)) cs).lookup c
            = some { data0 with state := s }) ∧
        ((∃ dc', (c, dc') ∈ mem) →
          (mem.foldl (fun cs3 e => setCityState cs3 e.1 (m.memberState sg e)) cs).lookup c
            = some { data0 with state := s }) := by
  intro mem
  induction mem with
  | nil =>
    intro hval cs hcs
    refine ⟨hcs, fun h => h, ?_⟩
    rintro ⟨dc', hdc⟩
    cases hdc
  | cons e t ih =>
    intro hval cs hcs
    simp only [List.foldl_cons]
    by_cases hec : e.1 = c
    · have he : e = (c, e.2) := by rw [← hec]
      have hwrite : m.memberState sg e = s := by
        rw [he]
        exact hval e.2 (by rw [← he]; exact List.mem_cons_self e t)
      have hupd : (setCityState cs e.1 (m.memberState sg e)).lookup c
          = some { data0 with state := s } := by
        rw [lookup_setCityState, if_pos hec.symm, hwrite]
        rcases hcs with h | h <;> rw [h] <;> rfl
      have hres := ih (fun dc' hdc => hval dc' (List.mem_cons_of_mem e hdc)) _ (Or.inr hupd)
      exact ⟨hres.1, fun _ => hres.2.1 hupd, fun _ => hres.2.1 hupd⟩
    · have hsame : (setCityState cs e.1 (m.memberState sg e)).lookup c = cs.lookup c := by
        rw [lookup_setCityState, if_neg (fun h => hec h.symm)]
      have hres := ih (fun dc' hdc => hval dc' (List.mem_cons_of_mem e hdc)) _
        (by rw [hsame]; exact hcs)
      refine ⟨hres.1, ?_, ?_⟩
      · intro h
        exact hres.2.1 (by rw [hsame]; exact h)
      · rintro ⟨dc', hdc⟩
        rcases List.mem_cons.mp hdc with heqe | hdt
        · exact absurd (congrArg Prod.fst heqe).symm hec
        · exact hres.2.2 ⟨dc', hdt⟩

/-- The whole write-back phase of `update_prices`, for one city `c`
whose every write (across all groups) carries the same state `s`. -/
theorem update_fold_char (m : Market) (c : CityId) (data0 : CityData)
    (s : MarketState) :
    ∀ (gl : List (CityId × List (CityId × ℚ))),
      (∀ gp ∈ gl, ∀ dc', (c, dc') ∈ gp.2 →
        m.memberState ((m.groupCurves gp.2).1.intersect (m.groupCurves gp.2).2) (c, dc') = s) →
      ∀ cs : List (CityId × CityData),
        (cs.lookup c = some data0 ∨ cs.lookup c = some { data0 with state := s }) →
        ((gl.foldl (fun cs2 gp =>
            gp.2.foldl (fun cs3 e => setCityState cs3 e.1
              (m.memberState ((m.groupCurves gp.2).1.intersect (m.groupCurves gp.2).2) e)) cs2)
            cs).lookup c = some data0 ∨
          (gl.foldl (fun cs2 gp =>
            gp.2.foldl (fun cs3 e => setCityState cs3 e.1
              (m.memberState ((m.groupCurves gp.2).1.intersect (m.groupCurves gp.2).2) e)) cs2)
            cs).lookup c = some { data0 with state := s }) ∧
        (cs.lookup c = some { data0 with state := s } →
          (gl.foldl (fun cs2 gp =>
            gp.2.foldl (fun cs3 e => setCityState cs3 e.1
              (m.memberState ((m.groupCurves gp.2).1.intersect (m.groupCurves gp.2).2) e)) cs2)
            cs).lookup c = some { data0 with state := s }) ∧
        ((∃ gp ∈ gl, ∃ dc', (c, dc') ∈ gp.2) →
          (gl.foldl (fun cs2 gp =>
            gp.2.foldl (fun cs3 e => setCityState cs3 e.1
              (m.memberState ((m.groupCurves gp.2).1.intersect (m.groupCurves gp.2).2) e)) cs2)
            cs).lookup c = some { data0 with state := s }) := by
  intro gl
  induction gl with
  | nil =>
    intro hval cs hcs
    refine ⟨hcs, fun h => h, ?_⟩
    rintro ⟨gp, hgp, _⟩
    cases hgp
  | cons gp gl' ih =>
    intro hval cs hcs
    simp only [List.foldl_cons]
    have hstep := m.member_fold_char c data0 s
      ((m.groupCurves gp.2).1.intersect (m.groupCurves gp.2).2) gp.2
      (fun dc' hdc => hval gp (List.mem_cons_self gp gl') dc' hdc) cs hcs
    have hres := ih (fun gp2 hgp2 => hval gp2 (List.mem_cons_of_mem gp hgp2)) _ hstep.1
    refine ⟨hres.1, ?_, ?_⟩
    · intro h
      exact hres.2.1 (hstep.2.1 h)
    · rintro ⟨gp2, hgp2, dc', hdc'⟩
      rcases List.mem_cons.mp hgp2 with heqg | hgl'
      · refine hres.2.1 (hstep.2.2 ⟨dc', ?_⟩)
        rw [← heqg]
        exact hdc'
      · exact hres.2.2 ⟨gp2, hgl', dc', hdc'⟩

/-- The city map after `update_prices`, as the explicit double fold. -/
theorem update_prices_cities (m : Market) :
    m.update_prices.cities
      = m.calculate_groups.foldl (fun cs2 gp =>
          gp.2.foldl (fun cs3 e => setCityState cs3 e.1
            (m.memberState ((m.groupCurves gp.2).1.intersect (m.groupCurves gp.2).2) e)) cs2)
        m.cities := rfl

end Market

/-! ## C1: the group partition and its arbitrage bounds -/

/-- An `Equilibrium` state carries its price and volumes. -/
theorem isEquilibrium_exists {s : MarketState} (h : s.isEquilibrium = true) :
    ∃ p q r, s = .equilibrium p q r := by
  cases s
  case equilibrium p q r => exact ⟨p, q, r, rfl⟩
  all_goals simp [MarketState.isEquilibrium] at h

/-- C1: in an all-`Equilibrium` market, the partitioning step binds
every city to exactly one `(group, offset)` pair; every binding's offset
is the signed sum of transport costs along a discovery path from its
group's root; and along every edge, endpoints in different groups have
an absolute price gap strictly below the transport cost, while a gap at
or above the cost forces the endpoints into the same group. -/
theorem C1_group_partition (m : Market) (hwf : m.wf)
    (heq : ∀ c ∈ m.cityIdsList, (m.stateOf c).isEquilibrium = true) :
    (∀ c ∈ m.geography.cityIds, ∃ gd, m.calculate_groups_map.lookup c = some gd) ∧
    (∀ k gv, m.calculate_groups_map.lookup k = some gv →
      m.DiscPath gv.1 k gv.2) ∧
    (∀ u, u ∈ m.geography.cityIds → ∀ conn ∈ m.geography.connOf u,
      ∃ pu pv gu gv2,
        m.priceOf u = some pu ∧ m.priceOf conn.id_to = some pv ∧
        m.calculate_groups_map.lookup u = some gu ∧
        m.calculate_groups_map.lookup conn.id_to = some gv2 ∧
        (gu.1 ≠ gv2.1 → |pu - pv| < conn.cost) ∧
        (conn.cost ≤ |pu - pv| → gu.1 = gv2.1)) := by
  have htotal : ∀ c ∈ m.geography.cityIds,
      ∃ gd, m.calculate_groups_map.lookup c = some gd := by
    intro c hc
    exact m.calc_groups_map_total c (by rw [hwf.2]; exact hc)
  refine ⟨htotal, m.calc_groups_map_path, ?_⟩
  intro u hu conn hconn
  have hwfc := hwf.1.2 u hu conn hconn
  have hequ := heq u (by rw [hwf.2]; exact hu)
  have heqv := heq conn.id_to (by rw [hwf.2]; exact hwfc.2.1)
  obtain ⟨pu, qu, ru, hsu⟩ := isEquilibrium_exists hequ
  obtain ⟨pv, qv, rv, hsv⟩ := isEquilibrium_exists heqv
  rcases htotal u hu with ⟨gu, hgu⟩
  rcases htotal conn.id_to hwfc.2.1 with ⟨gv2, hgv2⟩
  have hcondiff : m.connCond conn ↔ conn.cost ≤ |pu - pv| := by
    unfold Market.connCond
    rw [hwfc.1, hsu, hsv]
    show (pu - pv ≥ conn.cost ∨ pv - pu ≥ conn.cost) ↔ _
    rw [le_abs]
    constructor
    · rintro (h | h)
      · exact Or.inl h
      · exact Or.inr (by linarith)
    · rintro (h | h)
      · exact Or.inl h
      · exact Or.inr (by linarith)
  have hsame : m.connCond conn → gu.1 = gv2.1 := by
    intro hcond
    rcases m.calc_groups_map_inv hwf u gu hgu conn hconn hcond with ⟨gv2', h2, heq2⟩
    rw [hgv2] at h2
    injection h2 with h3
    rw [h3]
    exact heq2.symm
  refine ⟨pu, pv, gu, gv2, by unfold Market.priceOf; rw [hsu],
    by unfold Market.priceOf; rw [hsv], hgu, hgv2, ?_, ?_⟩
  · intro hneq
    by_contra hge
    exact hneq (hsame (hcondiff.mpr (not_lt.mp hge)))
  · intro hge
    exact hsame (hcondiff.mpr hge)

/-- Witness for C1: a one-city market in equilibrium. -/
theorem C1_witness :
    ∃ gd, (Market.mk (Geography.mk [⟨0, "a"⟩] [(0, [])])
        [(0, ⟨Demand.zero, Supply.zero, .equilibrium 5 0 0⟩)]).calculate_groups_map.lookup 0
      = some gd :=
  (C1_group_partition
    (Market.mk (Geography.mk [⟨0, "a"⟩] [(0, [])])
      [(0, ⟨Demand.zero, Supply.zero, .equilibrium 5 0 0⟩)])
    (by decide) (by decide)).1 0 (by decide)

/-! ## C2: per-group clearing and write-back -/

/-- C2: for every group produced by partitioning, when the intersection
of the summed offset-shifted curves yields `Equilibrium` at group price
`p`, every member city with offset `d` is assigned
`Equilibrium(p + d, own demand at p + d, own supply at p + d)` (its own
unshifted curves evaluated at the local price); when the group-wide
result is `UnderSupply`, `OverSupply` or `Undefined`, every member city
is assigned exactly that state. -/
theorem C2_group_clearing (m : Market) (hwf : m.wf) (g : CityId)
    (members : List (CityId × ℚ)) (hg : (g, members) ∈ m.calculate_groups)
    (c : CityId) (dc : ℚ) (hc : (c, dc) ∈ members) :
    (∀ p q r, (m.groupCurves members).1.intersect (m.groupCurves members).2
        = .equilibrium p q r →
      m.update_prices.stateOf c = .equilibrium (p + dc)
        ((m.demandOf c).value (p + dc)) ((m.supplyOf c).value (p + dc))) ∧
    ((m.groupCurves members).1.intersect (m.groupCurves members).2 = .underSupply →
      m.update_prices.stateOf c = .underSupply) ∧
    ((m.groupCurves members).1.intersect (m.groupCurves members).2 = .overSupply →
      m.update_prices.stateOf c = .overSupply) ∧
    ((m.groupCurves members).1.intersect (m.groupCurves members).2 = .undefined →
      m.update_prices.stateOf c = .undefined) := by
  have hnd : m.cityIdsList.Nodup := by
    rw [hwf.2]
    exact hwf.1.1
  have hgm := m.calculate_groups_mem_lookup g members hg c dc hc
  have hcity : c ∈ m.cityIdsList := by
    rw [hwf.2]
    exact m.calc_groups_map_keys hwf c (g, dc) hgm
  have hlook : ((m.cities.lookup c)).isSome := lookup_isSome_of_mem_keys hcity
  rcases Option.isSome_iff_exists.mp hlook with ⟨data0, hdata0⟩
  have hval : ∀ gp ∈ m.calculate_groups, ∀ dc', (c, dc') ∈ gp.2 →
      m.memberState ((m.groupCurves gp.2).1.intersect (m.groupCurves gp.2).2) (c, dc')
        = m.memberState ((m.groupCurves members).1.intersect (m.groupCurves members).2)
            (c, dc) := by
    intro gp hgp dc' hdc'
    have h2 := m.calculate_groups_mem_lookup gp.1 gp.2
      (by rw [Prod.mk.eta]; exact hgp) c dc' hdc'
    rw [hgm] at h2
    injection h2 with h3
    have hg1 : gp.1 = g := (congrArg Prod.fst h3).symm
    have hdceq : dc = dc' := (congrArg Prod.snd h3)
    have hmemeq : gp.2 = members := by
      refine m.calculate_groups_members_eq hnd g gp.2 members ?_ hg
      rw [← hg1, Prod.mk.eta]
      exact hgp
    rw [hmemeq, ← hdceq]
  have hchar := m.update_fold_char c data0
    (m.memberState ((m.groupCurves members).1.intersect (m.groupCurves members).2) (c, dc))
    m.calculate_groups hval m.cities (Or.inl hdata0)
  have hwrite := hchar.2.2 ⟨(g, members), hg, dc, hc⟩
  have hstate : m.update_prices.stateOf c
      = m.memberState ((m.groupCurves members).1.intersect (m.groupCurves members).2)
          (c, dc) := by
    unfold Market.stateOf
    rw [m.update_prices_cities, hwrite]
    rfl
  refine ⟨?_, ?_, ?_, ?_⟩
  · intro p q r hint
    rw [hstate, hint]
    rfl
  · intro hint
    rw [hstate, hint]
    rfl
  · intro hint
    rw [hstate, hint]
    rfl
  · intro hint
    rw [hstate, hint]
    rfl

/-- Witness for C2: a one-city market with empty aggregates; the group
intersection is `Undefined` and the city is assigned `Undefined`. -/
theorem C2_witness :
    (Market.mk (Geography.mk [⟨0, "a"⟩] [(0, [])])
      [(0, ⟨Demand.zero, Supply.zero, .undefined⟩)]).update_prices.stateOf 0
      = .undefined := by
  have h := C2_group_clearing
    (Market.mk (Geography.mk [⟨0, "a"⟩] [(0, [])])
      [(0, ⟨Demand.zero, Supply.zero, .undefined⟩)])
    (by decide) 0 [(0, 0)] (by decide) 0 0 (by decide)
  exact h.2.2.2 (by decide)

/-- Witness for C10: an absent demand against a concrete supply whose
leftmost value is positive classifies as `OverSupply`. -/
theorem C10_witness :
    Demand.zero.function.intersect (Supply.mk ⟨some ⟨0, 1, 2, 3, [(0, 1), (2, 3)]⟩⟩).function = none ∧
    Demand.zero.intersect (Supply.mk ⟨some ⟨0, 1, 2, 3, [(0, 1), (2, 3)]⟩⟩) = .overSupply := by
  have h := C10_absent_curve_no_equilibrium Demand.zero
    (Supply.mk ⟨some ⟨0, 1, 2, 3, [(0, 1), (2, 3)]⟩⟩) (Or.inl rfl)
  refine ⟨h.1, ?_⟩
  rw [h.2.2.1]
  decide

end SpatialMarket
